import Mathlib

/-!
Verification of the URL-candidate extraction and ranking core of the
google-image-scraper repository.

Strings are modelled as `List Char` (Python `str` / JS strings over code
points); machine text and URLs in the repository are ASCII except where
noted.  Each definition is a shallow embedding of a concrete function of
the source tree; the doc comment of every definition names its origin.
-/

/-- Strings of the scraped page and its URLs are lists of characters. -/
abbrev Str := List Char

/-- Substring containment, the semantics of Python `pat in s` and of
JavaScript `s.includes(pat)`: true iff `pat` occurs contiguously in `s`. -/
def hasSub (pat : Str) : Str → Bool
  | [] => pat.isEmpty
  | c :: t => pat.isPrefixOf (c :: t) || hasSub pat t

/-- Lowercasing of a string, the semantics of Python `s.lower()` on the
ASCII strings handled by this repository. -/
def lowerStr (s : Str) : Str := s.map Char.toLower

/-- Default thumbnail blocklist used by the in-page extraction script
(GoogleImageScraper.py lines 122-130). -/
def defaultBlocklist : List Str :=
  ["encrypted-tbn".data, "logo".data, "favicon".data, "/s90/".data,
   "/s100/".data, "/s150/".data, "=s64".data, "=s90".data, "=s100".data]

/-- Pattern Filter contract of the specification: a URL is blocked iff it
contains some blocklist entry as a substring.  This is the predicate the
in-page script's chained `!url.includes(...)` tests realise. -/
def is_blocked (url : Str) (blocklist : List Str) : Bool :=
  blocklist.any (fun pat => hasSub pat url)

/-- Keep-condition of extraction Method 1 of the in-page script
(GoogleImageScraper.py lines 122-130): the nine chained negated
`url.includes(pattern)` tests. -/
def method1Keep (url : Str) : Bool :=
  !(hasSub "encrypted-tbn".data url) &&
  !(hasSub "logo".data url) &&
  !(hasSub "favicon".data url) &&
  !(hasSub "/s90/".data url) &&
  !(hasSub "/s100/".data url) &&
  !(hasSub "/s150/".data url) &&
  !(hasSub "=s64".data url) &&
  !(hasSub "=s90".data url) &&
  !(hasSub "=s100".data url)

/-- Keep-condition of extraction Method 3 of the in-page script
(GoogleImageScraper.py lines 155-158): three negated includes plus the
50-character length heuristic. -/
def method3Keep (url : Str) : Bool :=
  !(hasSub "encrypted-tbn".data url) &&
  !(hasSub "logo".data url) &&
  !(hasSub "favicon".data url) &&
  decide (url.length > 50)

/-- Acceptance test of the click-fallback loop for a harvested `src`
attribute (GoogleImageScraper.py line 212): contains `http`, does not
contain `encrypted-tbn`, longer than 50 characters. -/
def clickAccept (src : Str) : Bool :=
  hasSub "http".data src &&
  !(hasSub "encrypted-tbn".data src) &&
  decide (src.length > 50)

/-- Embedding of `filter_thumbnail_urls` from
src/google_image_scraper/utils/helpers.py lines 80-96: a URL is kept when
no pattern occurs in the lowercased URL and its length exceeds 50. -/
def filter_thumbnail_urls (urls : List Str) (thumbnail_patterns : List Str) : List Str :=
  urls.filter (fun url =>
    let is_thumbnail := thumbnail_patterns.any (fun pat => hasSub pat (lowerStr url))
    !is_thumbnail && decide (url.length > 50))

/-- Embedding of `validate_resolution` from
src/google_image_scraper/utils/helpers.py lines 98-114: the chained
comparisons `min[0] <= width <= max[0] and min[1] <= height <= max[1]`. -/
def validate_resolution (width height : Nat)
    (min_resolution max_resolution : Nat × Nat) : Bool :=
  decide (min_resolution.1 ≤ width ∧ width ≤ max_resolution.1 ∧
          min_resolution.2 ≤ height ∧ height ≤ max_resolution.2)

/-- Embedding of `check_if_image_resolution_valid` from
GoogleImageScraper.py lines 323-333.  The function reads `image.size`,
a PIL 2-tuple; a Python 2-tuple is always truthy, so the outer
`if image_resolution:` guard always proceeds to the comparisons. -/
def check_if_image_resolution_valid (image_size : Nat × Nat)
    (min_resolution max_resolution : Nat × Nat) : Bool :=
  if image_size.1 ≥ min_resolution.1 ∧ image_size.1 ≤ max_resolution.1 ∧
     image_size.2 ≥ min_resolution.2 ∧ image_size.2 ≤ max_resolution.2
  then true else false

/-- First-occurrence deduplication, the semantics of Python
`list(dict.fromkeys(xs))` (GoogleImageScraper.py line 229) and of the
JavaScript spread of `new Set(xs)` (line 165): every element keeps its
first occurrence, later duplicates are dropped. -/
def dedupFirstAux {α : Type} [DecidableEq α] (seen : List α) : List α → List α
  | [] => []
  | x :: xs =>
    if x ∈ seen then dedupFirstAux seen xs
    else x :: dedupFirstAux (x :: seen) xs

/-- First-occurrence deduplication of a list, starting from no seen keys. -/
def dedupFirst {α : Type} [DecidableEq α] (l : List α) : List α := dedupFirstAux [] l

/-- UTF-8 encoding of one character, the semantics of Python
`str.encode('utf-8')` per code point (surrogate code points cannot occur
in a Lean `Char` and are out of scope). -/
def utf8EncodeChar (c : Char) : List Nat :=
  let n := c.toNat
  if n < 128 then [n]
  else if n < 2048 then [192 + n / 64, 128 + n % 64]
  else if n < 65536 then [224 + n / 4096, 128 + (n / 64) % 64, 128 + n % 64]
  else [240 + n / 262144, 128 + (n / 4096) % 64, 128 + (n / 64) % 64, 128 + n % 64]

/-- UTF-8 encoding of a string as a byte list. -/
def utf8Encode (s : Str) : List Nat := s.flatMap utf8EncodeChar

/-- Value of a hexadecimal digit given as a byte / code point, or `none`. -/
def hexDigitVal (b : Nat) : Option Nat :=
  if 48 ≤ b ∧ b ≤ 57 then some (b - 48)
  else if 97 ≤ b ∧ b ≤ 102 then some (b - 87)
  else if 65 ≤ b ∧ b ≤ 70 then some (b - 55)
  else none

/-- Octal digit test on a byte. -/
def isOctByte (b : Nat) : Bool := 48 ≤ b && b ≤ 55

/-- Reads exactly `n` hexadecimal digits from the front of a byte list,
most significant first. -/
def readHexAux : Nat → Nat → List Nat → Option Nat
  | 0, acc, _ => some acc
  | _ + 1, _, [] => none
  | n + 1, acc, b :: bs =>
    match hexDigitVal b with
    | some v => readHexAux n (acc * 16 + v) bs
    | none => none

/-- Value of the first `n` bytes of `bs` read as hexadecimal digits. -/
def readHex (n : Nat) (bs : List Nat) : Option Nat := readHexAux n 0 bs

/-- After a first octal digit of value `v1`, consume up to two further
octal digits (Python octal escapes take one to three digits); returns the
accumulated value and how many extra bytes were consumed. -/
def octTake2 (v1 : Nat) (bs : List Nat) : Nat × Nat :=
  match bs with
  | b2 :: rest2 =>
    if isOctByte b2 then
      match rest2 with
      | b3 :: _ =>
        if isOctByte b3 then (v1 * 64 + (b2 - 48) * 8 + (b3 - 48), 2)
        else (v1 * 8 + (b2 - 48), 1)
      | [] => (v1 * 8 + (b2 - 48), 1)
    else (v1, 0)
  | [] => (v1, 0)

/-- Embedding of Python `bytes.decode('unicode_escape')`: bytes without a
backslash decode as Latin-1; backslash escapes follow the Python table
(`\newline` continuation, single-character escapes, one- to three-digit
octal, `\xhh`, `\uhhhh`, `\Uhhhhhhhh`, unknown escapes kept verbatim);
truncated `\x`, `\u`, `\U`, a trailing backslash and out-of-range `\U`
raise, modelled as `none`.  Name-database lookups (backslash-N escapes)
are also modelled as a failure; no claim of this development exercises
them. -/
def esc : List Nat → Option (List Char)
  | [] => some []
  | b :: rest =>
    if b = 92 then
      match rest with
      | [] => none
      | e :: r =>
        if e = 10 then esc r
        else if e = 92 then (esc r).map (fun v => '\\' :: v)
        else if e = 39 then (esc r).map (fun v => '\'' :: v)
        else if e = 34 then (esc r).map (fun v => '"' :: v)
        else if e = 98 then (esc r).map (fun v => Char.ofNat 8 :: v)
        else if e = 102 then (esc r).map (fun v => Char.ofNat 12 :: v)
        else if e = 116 then (esc r).map (fun v => '\t' :: v)
        else if e = 110 then (esc r).map (fun v => '\n' :: v)
        else if e = 114 then (esc r).map (fun v => '\r' :: v)
        else if e = 118 then (esc r).map (fun v => Char.ofNat 11 :: v)
        else if e = 97 then (esc r).map (fun v => Char.ofNat 7 :: v)
        else if isOctByte e then
          let p := octTake2 (e - 48) r
          (esc (r.drop p.2)).map (fun v => Char.ofNat p.1 :: v)
        else if e = 120 then
          match readHex 2 r with
          | some v => (esc (r.drop 2)).map (fun w => Char.ofNat v :: w)
          | none => none
        else if e = 117 then
          match readHex 4 r with
          | some v => (esc (r.drop 4)).map (fun w => Char.ofNat v :: w)
          | none => none
        else if e = 85 then
          match readHex 8 r with
          | some v =>
            if v ≤ 1114111 then (esc (r.drop 8)).map (fun w => Char.ofNat v :: w)
            else none
          | none => none
        else if e = 78 then none
        else (esc r).map (fun v => '\\' :: Char.ofNat e :: v)
    else (esc rest).map (fun v => Char.ofNat b :: v)
termination_by bs => bs.length
decreasing_by
  all_goals simp [List.length_drop]
  all_goals omega

/-- Continuation byte test for UTF-8 decoding. -/
def isCont (b : Nat) : Bool := 128 ≤ b && b ≤ 191

/-- The Unicode replacement character, produced for ill-formed input. -/
def replChar : Char := Char.ofNat 65533

/-- Classifies one UTF-8 sequence starting at lead byte `b` with the
following bytes `rest`: returns the decoded character (or the replacement
character for a maximal ill-formed subpart) and how many bytes beyond `b`
were consumed. -/
def utf8Step (b : Nat) (rest : List Nat) : Char × Nat :=
  if b < 128 then (Char.ofNat b, 0)
  else if 194 ≤ b ∧ b ≤ 223 then
    match rest with
    | c1 :: _ =>
      if isCont c1 then (Char.ofNat ((b - 192) * 64 + (c1 - 128)), 1)
      else (replChar, 0)
    | [] => (replChar, 0)
  else if 224 ≤ b ∧ b ≤ 239 then
    match rest with
    | c1 :: r1 =>
      if (if b = 224 then 160 ≤ c1 && c1 ≤ 191
          else if b = 237 then 128 ≤ c1 && c1 ≤ 159
          else isCont c1) then
        match r1 with
        | c2 :: _ =>
          if isCont c2 then
            (Char.ofNat (((b - 224) * 64 + (c1 - 128)) * 64 + (c2 - 128)), 2)
          else (replChar, 1)
        | [] => (replChar, 1)
      else (replChar, 0)
    | [] => (replChar, 0)
  else if 240 ≤ b ∧ b ≤ 244 then
    match rest with
    | c1 :: r1 =>
      if (if b = 240 then 144 ≤ c1 && c1 ≤ 191
          else if b = 244 then 128 ≤ c1 && c1 ≤ 143
          else isCont c1) then
        match r1 with
        | c2 :: r2 =>
          if isCont c2 then
            match r2 with
            | c3 :: _ =>
              if isCont c3 then
                (Char.ofNat ((((b - 240) * 64 + (c1 - 128)) * 64 + (c2 - 128)) * 64 + (c3 - 128)), 3)
              else (replChar, 2)
            | [] => (replChar, 2)
          else (replChar, 1)
        | [] => (replChar, 1)
      else (replChar, 0)
    | [] => (replChar, 0)
  else (replChar, 0)

/-- UTF-8 decoding with `errors='replace'`, the semantics used by
`urllib.parse.unquote`: each maximal subpart of an ill-formed sequence
becomes one replacement character, and decoding resynchronises at the
following byte.  Every step consumes at least one byte, so the fuel
argument, seeded with the input length, is never exhausted; it only makes
the recursion structural. -/
def utf8DecodeReplaceAux : Nat → List Nat → List Char
  | 0, _ => []
  | _ + 1, [] => []
  | fuel + 1, b :: rest =>
    let p := utf8Step b rest
    p.1 :: utf8DecodeReplaceAux fuel (rest.drop p.2)

/-- UTF-8 decoding with replacement of a byte list. -/
def utf8DecodeReplace (bs : List Nat) : List Char :=
  utf8DecodeReplaceAux bs.length bs

mutual

/-- Embedding of CPython `urllib.parse.unquote` with the default
`encoding='utf-8', errors='replace'`: a percent sign followed by two hex
digits starts a run of percent-escaped bytes, each maximal run is decoded
as UTF-8 with replacement; an invalid percent sequence is passed through
literally.  This function never fails — matching the fact that `unquote`
raises no exception on any string input. -/
def unquote : Str → Str
  | [] => []
  | '%' :: c1 :: c2 :: rest =>
    match hexDigitVal c1.toNat, hexDigitVal c2.toNat with
    | some h1, some h2 => unquoteBytes [h1 * 16 + h2] rest
    | _, _ => '%' :: unquote (c1 :: c2 :: rest)
  | c :: rest => c :: unquote rest

/-- Accumulates the current run of consecutive percent-escaped bytes of
`unquote`; when the run ends the bytes are decoded as UTF-8 with
replacement and scanning continues. -/
def unquoteBytes (acc : List Nat) : Str → Str
  | [] => utf8DecodeReplace acc
  | '%' :: c1 :: c2 :: rest =>
    match hexDigitVal c1.toNat, hexDigitVal c2.toNat with
    | some h1, some h2 => unquoteBytes (acc ++ [h1 * 16 + h2]) rest
    | _, _ => utf8DecodeReplace acc ++ '%' :: unquote (c1 :: c2 :: rest)
  | c :: rest => utf8DecodeReplace acc ++ c :: unquote rest

end

/-- Embedding of `decode_url` from
src/google_image_scraper/utils/helpers.py lines 61-78, which is also the
inlined per-URL cleaning loop of GoogleImageScraper.py lines 236-246:
`url.encode('utf-8').decode('unicode_escape')` followed by
`urllib.parse.unquote`, with any exception returning the URL unchanged.
Only the escape decode can raise, so the fallback fires exactly when
`esc` fails. -/
def decode_url (url : Str) : Str :=
  match esc (utf8Encode url) with
  | some w => unquote w
  | none => url

/-- Successful-normalization result of `decode_url`, `none` when the
escape decode raises. -/
def decodeOpt (url : Str) : Option Str := (esc (utf8Encode url)).map unquote

/-- URL Post-Processor of GoogleImageScraper.py lines 227-246: concatenate
primary then fallback URLs, deduplicate with `dict.fromkeys` keeping first
occurrences, truncate with `[:number_of_images]`, then clean each entry
with the per-entry try/except embedded in `decode_url`. -/
def merge_and_finalize (primary fallback : List Str) (target_count : Nat) : List Str :=
  ((dedupFirst (primary ++ fallback)).take target_count).map decode_url

/-- Trigger condition of the click-fallback extractor
(GoogleImageScraper.py line 175): strictly fewer text-scan URLs than
requested images. -/
def fallback_triggered (full_res_urls : List Str) (number_of_images : Nat) : Bool :=
  decide (full_res_urls.length < number_of_images)

/-- Post-extraction pipeline of `find_image_urls`
(GoogleImageScraper.py lines 174-246) as a function of the text-scan
result, the clicked-fallback result and the requested count: the merge and
deduplication happen only inside the `if` of line 175; both branches then
truncate and clean. -/
def find_image_urls (full_res_urls clicked_urls : List Str)
    (number_of_images : Nat) : List Str :=
  if fallback_triggered full_res_urls number_of_images then
    merge_and_finalize full_res_urls clicked_urls number_of_images
  else
    (full_res_urls.take number_of_images).map decode_url

/-- Whitespace for the JavaScript regex class `\s` (the ASCII whitespace
characters plus the no-break, line/paragraph separator and BOM code
points; further exotic Unicode spaces do not occur in the claims). -/
def jsSpaceChar (c : Char) : Bool :=
  c = ' ' || c = '\t' || c = '\n' || c = '\r' || c = '\x0b' || c = '\x0c' ||
  c = '\u00A0' || c = '\u2028' || c = '\u2029' || c = '\uFEFF'

/-- Character class of the Method 1 regex of the in-page script
(GoogleImageScraper.py line 118): any character except whitespace, double
quote, single quote, comma and closing bracket. -/
def class1Char (c : Char) : Bool :=
  !(jsSpaceChar c || c = '"' || c = '\'' || c = ',' || c = ']')

/-- Character class of the Method 2 regex (line 143): any character except
whitespace, double quote and single quote. -/
def class2Char (c : Char) : Bool :=
  !(jsSpaceChar c || c = '"' || c = '\'')

/-- Character class of the Method 3 regex (line 152): the Method 1
exclusions plus parentheses and curly braces. -/
def class3Char (c : Char) : Bool :=
  !(jsSpaceChar c || c = '"' || c = '\'' || c = ',' || c = ']' ||
    c = '(' || c = ')' || c = '\x7b' || c = '\x7d')

/-- Case-insensitive literal match: strips `pat` from the front of `s`
comparing lowercased characters, returning the remainder. -/
def stripCI : Str → Str → Option Str
  | [], s => some s
  | _ :: _, [] => none
  | p :: ps, c :: cs => if c.toLower = p.toLower then stripCI ps cs else none

/-- The extension alternatives of the regexes, in source order. -/
def extAlts : List Str :=
  ["jpg".data, "jpeg".data, "png".data, "webp".data, "gif".data]

/-- First extension alternative matching at the front of `r2`
(case-insensitively), returning its length and the remainder; regex
alternation takes the first matching branch. -/
def findExt : List Str → Str → Option (Nat × Str)
  | [], _ => none
  | e :: es, r2 =>
    match stripCI e r2 with
    | some q => some (e.length, q)
    | none => findExt es r2

/-- Length consumed by the optional greedy query group `([?&][^...]*)?`:
a query mark or ampersand followed by the maximal run of class
characters, or nothing. -/
def queryLen (cls : Char → Bool) (hasQuery : Bool) (q : Str) : Nat :=
  if hasQuery then
    match q with
    | c :: q2 => if c = '?' || c = '&' then 1 + (q2.takeWhile cls).length else 0
    | [] => 0
  else 0

/-- Length consumed from `r` by `\.(jpg|jpeg|png|webp|gif)` followed by
the optional query group, or `none` when the dot-extension does not match
here. -/
def extTail (cls : Char → Bool) (hasQuery : Bool) (r : Str) : Option Nat :=
  match r with
  | '.' :: r2 =>
    match findExt extAlts r2 with
    | some (elen, q) => some (1 + elen + queryLen cls hasQuery q)
    | none => none
  | _ => none

/-- Greedy backtracking of the `[^...]+` body: try body lengths `j` down
to `1` against the maximal class run of `s3`, and return the total length
of body plus dot-extension-query for the longest body with a valid
continuation — the semantics of a greedy `+` followed by `\.`. -/
def bodySearch (cls : Char → Bool) (hasQuery : Bool) (s3 : Str) : Nat → Option Nat
  | 0 => none
  | j + 1 =>
    match extTail cls hasQuery (s3.drop (j + 1)) with
    | some k => some (j + 1 + k)
    | none => bodySearch cls hasQuery s3 j

/-- Length of the regex match anchored at the start of `s`, or `none`:
case-insensitive `http`, optional `s`, `://`, greedy class body with
backtracking, dot-extension, optional query. -/
def matchAt (cls : Char → Bool) (hasQuery : Bool) (s : Str) : Option Nat :=
  match stripCI "http".data s with
  | none => none
  | some s1 =>
    let p : Nat × Str :=
      match s1 with
      | c :: rest => if c.toLower = 's' then (5, rest) else (4, s1)
      | [] => (4, s1)
    match stripCI "://".data p.2 with
    | none => none
    | some s3 =>
      match bodySearch cls hasQuery s3 (s3.takeWhile cls).length with
      | some t => some (p.1 + 3 + t)
      | none => none

/-- All matches of the regex over the text in the JavaScript `g`-flag
discipline: try each position left to right, and continue scanning right
after a found match.  A successful match always consumes at least one
character, so fuel seeded with the text length is never exhausted; it
only makes the recursion structural. -/
def scanAux (cls : Char → Bool) (hasQuery : Bool) : Nat → Str → List Str
  | 0, _ => []
  | _ + 1, [] => []
  | fuel + 1, c :: rest =>
    match matchAt cls hasQuery (c :: rest) with
    | some len => (c :: rest).take len :: scanAux cls hasQuery fuel ((c :: rest).drop len)
    | none => scanAux cls hasQuery fuel rest

/-- All regex matches over `text`. -/
def scanMatches (cls : Char → Bool) (hasQuery : Bool) (text : Str) : List Str :=
  scanAux cls hasQuery text.length text

/-- First match of the regex over the text (Method 2 runs without the `g`
flag and uses only `match[0]`). -/
def firstMatch (cls : Char → Bool) (hasQuery : Bool) : Str → Option Str
  | [] => none
  | c :: rest =>
    match matchAt cls hasQuery (c :: rest) with
    | some len => some ((c :: rest).take len)
    | none => firstMatch cls hasQuery rest

/-- Stable insertion of `x` before the first element no longer than it:
together with `sortLenDesc` this realises the observable behaviour of the
stable `Array.prototype.sort` under the comparator
`(a, b) => b.length - a.length` (line 168). -/
def insertLenDesc (x : Str) : List Str → List Str
  | [] => [x]
  | y :: ys => if y.length ≤ x.length then x :: y :: ys else y :: insertLenDesc x ys

/-- Stable sort by string length, descending; ties keep input order. -/
def sortLenDesc : List Str → List Str
  | [] => []
  | x :: xs => insertLenDesc x (sortLenDesc xs)

/-- Embedding of the in-page extraction script
(GoogleImageScraper.py lines 108-170, identically
src/google_image_scraper/core/scraper.py lines 161-221) as a function of
the script-tag texts, the meta-tag content attributes and the whole
rendered markup: the three collection methods, the `Set`-based
deduplication and the length sort. -/
def extract_urls_from_page_data (scripts metas : List Str) (allText : Str) : List Str :=
  let m1 := scripts.flatMap (fun content =>
    if hasSub "[\"".data content && hasSub "http".data content then
      (scanMatches class1Char true content).filter method1Keep
    else [])
  let m2 := metas.flatMap (fun content =>
    if hasSub "http".data content &&
       (hasSub ".jpg".data content || hasSub ".png".data content) then
      match firstMatch class2Char false content with
      | some m => if !(hasSub "encrypted-tbn".data m) then [m] else []
      | none => []
    else [])
  let m3 := (scanMatches class3Char true allText).filter method3Keep
  sortLenDesc (dedupFirst (m1 ++ m2 ++ m3))

/-- Strips a case-insensitive `http` or `https` scheme followed by `://`
from the front of a URL. -/
def schemeSplit (s : Str) : Option Str :=
  match stripCI "http".data s with
  | none => none
  | some s1 =>
    match s1 with
    | c :: rest => if c.toLower = 's' then stripCI "://".data rest else stripCI "://".data s1
    | [] => none

/-- Recogniser for the tail of the image-extension pattern: a dot, one of
the five extensions, then nothing or a complete query string. -/
def shapedTail (r : Str) : Bool :=
  match r with
  | '.' :: r2 =>
    extAlts.any (fun e =>
      match stripCI e r2 with
      | some [] => true
      | some (c :: q) => (c = '?' || c = '&') && q.all class2Char
      | none => false)
  | _ => false

/-- Recogniser of the image-extension URL shape of the specification:
an `http(s)` scheme, a nonempty body of characters from the most
permissive class, a dot, an allowed extension, and an optional query
string. -/
def isImageUrlShaped (s : Str) : Bool :=
  match schemeSplit s with
  | some t =>
    (List.range t.length).any (fun j =>
      (t.take (j + 1)).all class2Char && shapedTail (t.drop (j + 1)))
  | none => false

/-! Basic lemmas about substring containment. -/

theorem isPrefixOf_iff_exists {p s : Str} :
    p.isPrefixOf s = true ↔ ∃ t, s = p ++ t := by
  induction p generalizing s with
  | nil => simp [List.isPrefixOf]
  | cons a as ih =>
    cases s with
    | nil => simp [List.isPrefixOf]
    | cons b bs =>
      simp only [List.isPrefixOf, Bool.and_eq_true, beq_iff_eq, ih]
      constructor
      · rintro ⟨rfl, t, rfl⟩; exact ⟨t, rfl⟩
      · rintro ⟨t, ht⟩
        injection ht with h1 h2
        exact ⟨h1.symm, t, h2⟩

theorem hasSub_iff {pat s : Str} :
    hasSub pat s = true ↔ ∃ a b, s = a ++ pat ++ b := by
  induction s with
  | nil =>
    simp only [hasSub, List.isEmpty_iff]
    constructor
    · rintro rfl; exact ⟨[], [], rfl⟩
    · rintro ⟨a, b, h⟩
      rcases List.append_eq_nil.mp h.symm with ⟨h1, h2⟩
      rcases List.append_eq_nil.mp h1 with ⟨-, h3⟩
      exact h3
  | cons c t ih =>
    simp only [hasSub, Bool.or_eq_true, isPrefixOf_iff_exists, ih]
    constructor
    · rintro (⟨tl, htl⟩ | ⟨a, b, rfl⟩)
      · exact ⟨[], tl, by simpa using htl⟩
      · exact ⟨c :: a, b, rfl⟩
    · rintro ⟨a, b, h⟩
      cases a with
      | nil => exact Or.inl ⟨b, by simpa using h⟩
      | cons a0 a' =>
        injection h with h1 h2
        exact Or.inr ⟨a', b, h2⟩

/-- Claim C8: for all non-negative integers w, h and resolution windows,
the resolution validator returns true iff min_w ≤ w ≤ max_w and
min_h ≤ h ≤ max_h; boundary values exactly at the min or max are
accepted, so validate(800,600,(800,600),(1920,1080)) is true and
validate(799,600,(800,600),(1920,1080)) is false. -/
theorem C8_validate_resolution_spec :
    (∀ (w h : Nat) (minr maxr : Nat × Nat),
      validate_resolution w h minr maxr = true ↔
        (minr.1 ≤ w ∧ w ≤ maxr.1 ∧ minr.2 ≤ h ∧ h ≤ maxr.2)) ∧
    validate_resolution 800 600 (800, 600) (1920, 1080) = true ∧
    validate_resolution 799 600 (800, 600) (1920, 1080) = false := by
  refine ⟨fun w h minr maxr => ?_, by decide, by decide⟩
  simp [validate_resolution]

/-- Claim C10: the two resolution-check implementations are equivalent:
for every dimensions pair and every resolution window,
check_if_image_resolution_valid returns the same boolean as
validate_resolution. -/
theorem C10_resolution_checks_equivalent (w h : Nat) (minr maxr : Nat × Nat) :
    check_if_image_resolution_valid (w, h) minr maxr =
      validate_resolution w h minr maxr := by
  unfold check_if_image_resolution_valid validate_resolution
  split
  · rename_i hp; simp_all
  · rename_i hp; simp_all

/-- Claim C7: if normalization of one individual URL fails, the cleaning
loop substitutes the original un-normalized string for that single entry
and continues; a failure never aborts the batch, and every other entry of
the output is the same as if that entry had not been present. -/
theorem C7_per_entry_fallback (l1 l2 : List Str) (u : Str)
    (h : decodeOpt u = none) :
    (l1 ++ u :: l2).map decode_url
        = l1.map decode_url ++ u :: l2.map decode_url ∧
    (l1 ++ l2).map decode_url = l1.map decode_url ++ l2.map decode_url := by
  have hesc : esc (utf8Encode u) = none := by
    unfold decodeOpt at h
    cases he : esc (utf8Encode u) with
    | none => rfl
    | some w => rw [he] at h; simp at h
  have hu : decode_url u = u := by unfold decode_url; rw [hesc]
  exact ⟨by simp [hu], by simp⟩

/-- Witness for C7 at a concrete failing URL: the malformed escape makes
normalization fail, the entry is kept verbatim and the batch survives. -/
theorem C7_per_entry_fallback_witness :
    ("ok".data :: "\\u00zz".data :: ["fine".data]).map decode_url
        = ("ok".data :: []).map decode_url
            ++ "\\u00zz".data :: ("fine".data :: []).map decode_url := by
  have h : utf8Encode "\\u00zz".data = [92, 117, 48, 48, 122, 122] := by decide
  have hnone : decodeOpt "\\u00zz".data = none := by
    unfold decodeOpt
    rw [h, esc.eq_def]
    simp [hexDigitVal, readHex, readHexAux, isOctByte]
  exact (C7_per_entry_fallback ["ok".data] ["fine".data] "\\u00zz".data hnone).1

/-- Counterexample to claim C1 as stated: `filter_thumbnail_urls`
lowercases the URL before the containment test, so a long URL containing
only upper-case LOGO is dropped as blocked although no blocklist pattern
occurs in it case-sensitively. -/
theorem C1_case_folding_counterexample :
    filter_thumbnail_urls
        ["HTTP://EXAMPLE.COM/LOGO/AAAAAAAAAAAAAAAAAAAAAAAAAAAAAAAAAA.JPG".data]
        ["logo".data] = [] ∧
    hasSub "logo".data
        "HTTP://EXAMPLE.COM/LOGO/AAAAAAAAAAAAAAAAAAAAAAAAAAAAAAAAAA.JPG".data
      = false ∧
    50 < "HTTP://EXAMPLE.COM/LOGO/AAAAAAAAAAAAAAAAAAAAAAAAAAAAAAAAAA.JPG".data.length := by
  refine ⟨by decide, by decide, by decide⟩

/-- Claim C1 as amended: the in-page script's blocking predicate is exact
case-sensitive substring containment of some blocklist entry (false for
the empty blocklist); `filter_thumbnail_urls`, however, matches the
patterns against the lowercased URL and additionally drops every URL of
length at most 50 even when unblocked. -/
theorem C1_pattern_filter_amended :
    (∀ (u : Str) (B : List Str),
      is_blocked u B = true ↔ ∃ p ∈ B, ∃ a b, u = a ++ p ++ b) ∧
    (∀ u : Str, is_blocked u [] = false) ∧
    (∀ (urls pats : List Str) (u : Str),
      u ∈ filter_thumbnail_urls urls pats ↔
        u ∈ urls ∧ (¬ ∃ p ∈ pats, ∃ a b, lowerStr u = a ++ p ++ b)
          ∧ 50 < u.length) := by
  refine ⟨fun u B => ?_, fun u => ?_, fun urls pats u => ?_⟩
  · simp only [is_blocked, List.any_eq_true, hasSub_iff]
  · simp [is_blocked]
  · simp only [filter_thumbnail_urls, List.mem_filter, Bool.and_eq_true,
      Bool.not_eq_true', List.any_eq_false, decide_eq_true_eq]
    constructor
    · rintro ⟨hm, hblk, hlen⟩
      refine ⟨hm, ?_, hlen⟩
      rintro ⟨p, hp, hex⟩
      have h2 := hasSub_iff.mpr hex
      exact hblk p hp h2
    · rintro ⟨hm, hblk, hlen⟩
      refine ⟨hm, fun p hp => ?_, hlen⟩
      cases hcase : hasSub p (lowerStr u) with
      | false => simp
      | true =>
        rcases hasSub_iff.mp hcase with ⟨a, b, hab⟩
        exact absurd ⟨p, hp, a, b, hab⟩ hblk

/-! Lemmas about first-occurrence deduplication. -/

theorem mem_dedupFirstAux {α : Type} [DecidableEq α] (seen l : List α) (a : α) :
    a ∈ dedupFirstAux seen l ↔ a ∈ l ∧ a ∉ seen := by
  induction l generalizing seen with
  | nil => simp [dedupFirstAux]
  | cons x xs ih =>
    by_cases hx : x ∈ seen
    · simp only [dedupFirstAux, if_pos hx, ih, List.mem_cons]
      constructor
      · rintro ⟨hm, hs⟩; exact ⟨Or.inr hm, hs⟩
      · rintro ⟨hm | hm, hs⟩
        · exact absurd (hm ▸ hx) hs
        · exact ⟨hm, hs⟩
    · simp only [dedupFirstAux, if_neg hx, List.mem_cons, ih]
      by_cases hax : a = x
      · subst hax; simp [hx]
      · simp [hax, List.mem_cons]

theorem sublist_dedupFirstAux {α : Type} [DecidableEq α] (seen l : List α) :
    List.Sublist (dedupFirstAux seen l) l := by
  induction l generalizing seen with
  | nil => simp [dedupFirstAux]
  | cons x xs ih =>
    by_cases hx : x ∈ seen
    · simpa [dedupFirstAux, if_pos hx] using (ih seen).cons x
    · simpa [dedupFirstAux, if_neg hx] using (ih (x :: seen)).cons₂ x

theorem nodup_dedupFirstAux {α : Type} [DecidableEq α] (seen l : List α) :
    (dedupFirstAux seen l).Nodup := by
  induction l generalizing seen with
  | nil => simp [dedupFirstAux]
  | cons x xs ih =>
    by_cases hx : x ∈ seen
    · simpa [dedupFirstAux, if_pos hx] using ih seen
    · simp only [dedupFirstAux, if_neg hx, List.nodup_cons]
      refine ⟨fun hmem => ?_, ih (x :: seen)⟩
      exact ((mem_dedupFirstAux _ _ _).mp hmem).2 (List.mem_cons_self x seen)

theorem dedupFirstAux_eq_self {α : Type} [DecidableEq α] {seen l : List α}
    (h : l.Nodup) (h2 : ∀ x ∈ l, x ∉ seen) : dedupFirstAux seen l = l := by
  induction l generalizing seen with
  | nil => simp [dedupFirstAux]
  | cons x xs ih =>
    have hx : x ∉ seen := h2 x (List.mem_cons_self x xs)
    rw [dedupFirstAux, if_neg hx]
    congr 1
    refine ih (List.Nodup.of_cons h) fun y hy => ?_
    intro hmem
    rcases List.mem_cons.mp hmem with rfl | hmem2
    · exact (List.nodup_cons.mp h).1 hy
    · exact h2 y (List.mem_cons_of_mem x hy) hmem2

theorem pairwise_indexOf_dedupFirstAux {α : Type} [DecidableEq α]
    (seen l : List α) :
    (dedupFirstAux seen l).Pairwise
      (fun a b => l.indexOf a < l.indexOf b) := by
  induction l generalizing seen with
  | nil => simp [dedupFirstAux]
  | cons x xs ih =>
    have trans : ∀ s : List α, (∀ c ∈ dedupFirstAux s xs, c ≠ x) →
        (dedupFirstAux s xs).Pairwise
          (fun a b => (x :: xs).indexOf a < (x :: xs).indexOf b) := by
      intro s hne
      refine List.Pairwise.imp_of_mem ?_ (ih s)
      intro a b ha hb hab
      rw [List.indexOf_cons_ne _ (Ne.symm (hne a ha)),
          List.indexOf_cons_ne _ (Ne.symm (hne b hb))]
      exact Nat.succ_lt_succ hab
    by_cases hx : x ∈ seen
    · rw [dedupFirstAux, if_pos hx]
      refine trans seen fun c hc hcx => ?_
      exact ((mem_dedupFirstAux _ _ _).mp hc).2 (by rw [hcx]; exact hx)
    · rw [dedupFirstAux, if_neg hx]
      refine List.pairwise_cons.mpr ⟨?_, ?_⟩
      · intro b hb
        have hbx : b ≠ x := fun h =>
          ((mem_dedupFirstAux _ _ _).mp hb).2 (by rw [h]; exact List.mem_cons_self x seen)
        rw [List.indexOf_cons_self, List.indexOf_cons_ne _ (Ne.symm hbx)]
        exact Nat.succ_pos _
      · refine trans (x :: seen) fun c hc h => ?_
        exact ((mem_dedupFirstAux _ _ _).mp hc).2 (by rw [h]; exact List.mem_cons_self x seen)

/-! Corollaries for deduplication from the empty seen set. -/

theorem mem_dedupFirst {α : Type} [DecidableEq α] {l : List α} {a : α} :
    a ∈ dedupFirst l ↔ a ∈ l := by
  simp [dedupFirst, mem_dedupFirstAux]

theorem nodup_dedupFirst {α : Type} [DecidableEq α] (l : List α) :
    (dedupFirst l).Nodup := nodup_dedupFirstAux [] l

theorem dedupFirst_eq_self {α : Type} [DecidableEq α] {l : List α}
    (h : l.Nodup) : dedupFirst l = l :=
  dedupFirstAux_eq_self h (by simp)

theorem length_dedupFirst_eq_length_dedup {α : Type} [DecidableEq α]
    (l : List α) : (dedupFirst l).length = l.dedup.length := by
  refine List.Perm.length_eq ?_
  refine (List.perm_ext_iff_of_nodup (nodup_dedupFirst l) (List.nodup_dedup l)).mpr ?_
  intro a
  rw [mem_dedupFirst, List.mem_dedup]

/-! Lemmas about normalization of plain ASCII strings. -/

theorem utf8EncodeChar_ascii {c : Char} (h : c.toNat < 128) :
    utf8EncodeChar c = [c.toNat] := by
  simp [utf8EncodeChar, h]

theorem utf8Encode_ascii {s : Str} (h : ∀ c ∈ s, c.toNat < 128) :
    utf8Encode s = s.map Char.toNat := by
  induction s with
  | nil => rfl
  | cons c t ih =>
    simp only [utf8Encode, List.flatMap_cons, List.map_cons] at *
    rw [utf8EncodeChar_ascii (h c (List.mem_cons_self c t)),
      ih fun d hd => h d (List.mem_cons_of_mem c hd)]
    rfl

theorem toNat_ne_92 {c : Char} (h : c ≠ '\\') : c.toNat ≠ 92 := by
  intro hc
  apply h
  have := Char.ofNat_toNat c
  rw [hc] at this
  exact this.symm

theorem esc_no_backslash {bs : List Nat} (h : ∀ b ∈ bs, b ≠ 92) :
    esc bs = some (bs.map Char.ofNat) := by
  induction bs with
  | nil => rw [esc.eq_def]; rfl
  | cons b rest ih =>
    rw [esc.eq_def]
    simp only [List.map_cons]
    rw [if_neg (h b (List.mem_cons_self b rest))]
    rw [ih fun d hd => h d (List.mem_cons_of_mem b hd)]
    rfl

theorem unquote_cons_ne {c : Char} (rest : Str) (h : c ≠ '%') :
    unquote (c :: rest) = c :: unquote rest := by
  rw [unquote.eq_def]
  split
  · rename_i heq; exact absurd heq (by simp)
  · rename_i c1 c2 r heq
    injection heq with h1 h2
    exact absurd h1 h
  · rename_i x c' rest' hne heq
    injection heq with h1 h2
    subst h1; subst h2; rfl

theorem unquote_no_pct {s : Str} (h : ∀ c ∈ s, c ≠ '%') : unquote s = s := by
  induction s with
  | nil => rfl
  | cons c rest ih =>
    rw [unquote_cons_ne rest (h c (List.mem_cons_self c rest)),
      ih fun d hd => h d (List.mem_cons_of_mem c hd)]

theorem decode_url_eq_unquote {u : Str}
    (h : ∀ c ∈ u, c.toNat < 128 ∧ c ≠ '\\') : decode_url u = unquote u := by
  have henc : utf8Encode u = u.map Char.toNat :=
    utf8Encode_ascii fun c hc => (h c hc).1
  have hesc : esc (utf8Encode u) = some ((u.map Char.toNat).map Char.ofNat) := by
    rw [henc]
    refine esc_no_backslash fun b hb => ?_
    rcases List.mem_map.mp hb with ⟨c, hc, rfl⟩
    exact toNat_ne_92 (h c hc).2
  unfold decode_url
  rw [hesc]
  rw [List.map_map]
  have : (Char.ofNat ∘ Char.toNat) = id := by
    funext c; simp [Char.ofNat_toNat]
  rw [this, List.map_id]

theorem decode_url_id {u : Str}
    (h : ∀ c ∈ u, c.toNat < 128 ∧ c ≠ '\\' ∧ c ≠ '%') : decode_url u = u := by
  rw [decode_url_eq_unquote fun c hc => ⟨(h c hc).1, (h c hc).2.1⟩]
  exact unquote_no_pct fun c hc => (h c hc).2.2

/-- Counterexample to claim C3 as stated: two distinct input URLs can
normalize to the same string, so the Post-Processor output is not always
duplicate-free. -/
theorem C3_duplicate_counterexample :
    merge_and_finalize ["a%20b".data] ["a b".data] 2
        = ["a b".data, "a b".data] ∧
    ¬ (merge_and_finalize ["a%20b".data] ["a b".data] 2).Nodup := by
  have h1 : decode_url "a%20b".data = "a b".data := by
    rw [decode_url_eq_unquote (by decide)]; decide
  have h2 : decode_url "a b".data = "a b".data := decode_url_id (by decide)
  have h3 : dedupFirst (["a%20b".data] ++ ["a b".data])
      = ["a%20b".data, "a b".data] := by decide
  have hmain : merge_and_finalize ["a%20b".data] ["a b".data] 2
      = ["a b".data, "a b".data] := by
    unfold merge_and_finalize
    rw [h3]
    simp [h1, h2]
  exact ⟨hmain, by rw [hmain]; decide⟩

/-- Claim C3 as amended: the Post-Processor output has length exactly
min(N, number of distinct strings of primary ++ fallback), equals the
per-entry normalization of the merged, first-occurrence-deduplicated and
truncated sequence, and that pre-normalization sequence is duplicate-free
and strictly ordered by first occurrence in primary ++ fallback;
normalization itself may identify two distinct entries. -/
theorem C3_merge_and_finalize_amended (p f : List Str) (n : Nat) :
    (merge_and_finalize p f n).length = min n ((p ++ f).dedup).length ∧
    ((dedupFirst (p ++ f)).take n).Nodup ∧
    ((dedupFirst (p ++ f)).take n).Pairwise
      (fun a b => (p ++ f).findIdx (fun x => x = a)
        < (p ++ f).findIdx (fun x => x = b)) ∧
    merge_and_finalize p f n = ((dedupFirst (p ++ f)).take n).map decode_url := by
  refine ⟨?_, ?_, ?_, rfl⟩
  · simp only [merge_and_finalize, List.length_map, List.length_take,
      length_dedupFirst_eq_length_dedup]
  · exact (List.take_sublist _ _).nodup (nodup_dedupFirst _)
  · exact List.Pairwise.sublist (List.take_sublist _ _)
      (pairwise_indexOf_dedupFirstAux [] _)

/-- Counterexample to claim C5 as stated: normalization is not
idempotent, a URL containing a double-encoded escape decodes one layer
per pass, so re-finalizing an already finalized list changes it. -/
theorem C5_not_idempotent :
    merge_and_finalize (merge_and_finalize ["x%2520y".data] [] 1) [] 1
      ≠ merge_and_finalize ["x%2520y".data] [] 1 := by
  have h1 : decode_url "x%2520y".data = "x%20y".data := by
    rw [decode_url_eq_unquote (by decide)]; decide
  have h2 : decode_url "x%20y".data = "x y".data := by
    rw [decode_url_eq_unquote (by decide)]; decide
  have e1 : merge_and_finalize ["x%2520y".data] [] 1 = ["x%20y".data] := by
    unfold merge_and_finalize
    rw [show dedupFirst (["x%2520y".data] ++ []) = ["x%2520y".data] by decide]
    simp [h1]
  have e2 : merge_and_finalize ["x%20y".data] [] 1 = ["x y".data] := by
    unfold merge_and_finalize
    rw [show dedupFirst (["x%20y".data] ++ []) = ["x%20y".data] by decide]
    simp [h2]
  rw [e1, e2]
  decide

/-- Claim C5 as amended: the merge, first-occurrence deduplication and
truncation stage is idempotent — re-running it on its own output (with
the same target count and an empty fallback) returns the identical
sequence; only the per-entry normalization stage is not idempotent. -/
theorem C5_merge_stage_idempotent (p f : List Str) (n : Nat) :
    (dedupFirst ((dedupFirst (p ++ f)).take n ++ [])).take n
      = (dedupFirst (p ++ f)).take n := by
  rw [List.append_nil,
    dedupFirst_eq_self ((List.take_sublist _ _).nodup (nodup_dedupFirst _)),
    List.take_take]
  simp

/-- Claim C9: the click fallback runs iff the text scan found strictly
fewer URLs than requested; otherwise the final result is the text-scan
result alone, truncated and normalized, with no fallback contribution. -/
theorem C9_fallback_trigger (ts clicked : List Str) (n : Nat) :
    (fallback_triggered ts n = true ↔ ts.length < n) ∧
    (fallback_triggered ts n = false →
      find_image_urls ts clicked n = (ts.take n).map decode_url) := by
  constructor
  · simp [fallback_triggered]
  · intro h; simp [find_image_urls, h]

/-- Witness for C9 at concrete inputs where the text scan suffices. -/
theorem C9_fallback_trigger_witness :
    find_image_urls ["aa".data, "bb".data] ["zz".data] 2
      = (["aa".data, "bb".data].take 2).map decode_url :=
  (C9_fallback_trigger ["aa".data, "bb".data] ["zz".data] 2).2 (by decide)

/-- Counterexample to claim C2 as stated: a URL containing the
blocklisted pattern `logo` passes the click-fallback acceptance test
(which screens only for `http`, `encrypted-tbn` and length) and reaches
the final merged, truncated and normalized result unchanged. -/
theorem C2_blocklist_invariant_counterexample :
    clickAccept
      "http://example.com/images/logo-banner-photo-large-size.jpg".data = true ∧
    find_image_urls []
        ["http://example.com/images/logo-banner-photo-large-size.jpg".data] 1
      = ["http://example.com/images/logo-banner-photo-large-size.jpg".data] ∧
    is_blocked
      "http://example.com/images/logo-banner-photo-large-size.jpg".data
      defaultBlocklist = true := by
  refine ⟨by decide, ?_, by decide⟩
  have hid : decode_url
      "http://example.com/images/logo-banner-photo-large-size.jpg".data
    = "http://example.com/images/logo-banner-photo-large-size.jpg".data :=
    decode_url_id (by decide)
  have h3 : dedupFirst
      ["http://example.com/images/logo-banner-photo-large-size.jpg".data]
    = ["http://example.com/images/logo-banner-photo-large-size.jpg".data] := by
    decide
  have htrig : fallback_triggered [] 1 = true := by decide
  simp only [find_image_urls, htrig, if_true, merge_and_finalize,
    List.nil_append]
  rw [h3]
  simp [hid]

/-- Claim C2 as amended: URLs kept by the text-scan Method 1 filter
contain no default-blocklist pattern at extraction time; URLs accepted by
the click fallback are only guaranteed not to contain `encrypted-tbn`, so
the final list may contain other blocklisted patterns such as `logo`. -/
theorem C2_screen_guarantees :
    (∀ u : Str, method1Keep u = true → is_blocked u defaultBlocklist = false) ∧
    (∀ u : Str, clickAccept u = true → hasSub "encrypted-tbn".data u = false) := by
  constructor
  · intro u h
    simp only [method1Keep, Bool.and_eq_true, Bool.not_eq_true'] at h
    obtain ⟨⟨⟨⟨⟨⟨⟨⟨h1, h2⟩, h3⟩, h4⟩, h5⟩, h6⟩, h7⟩, h8⟩, h9⟩ := h
    simp [is_blocked, defaultBlocklist, h1, h2, h3, h4, h5, h6, h7, h8, h9]
  · intro u h
    simp only [clickAccept, Bool.and_eq_true, Bool.not_eq_true'] at h
    exact h.1.2

/-- Witness for C2's amended guarantees at a concrete clean URL. -/
theorem C2_screen_guarantees_witness :
    is_blocked
      "https://img.example/a-very-long-and-clean-picture-name-000.jpg".data
      defaultBlocklist = false ∧
    hasSub "encrypted-tbn".data
      "https://img.example/a-very-long-and-clean-picture-name-000.jpg".data
      = false :=
  ⟨C2_screen_guarantees.1 _ (by decide), C2_screen_guarantees.2 _ (by decide)⟩

/-! Equation lemmas for the escape decoder. -/

theorem esc_cons_ne92 {b : Nat} (rest : List Nat) (h : b ≠ 92) :
    esc (b :: rest) = (esc rest).map (fun v => Char.ofNat b :: v) := by
  rw [esc.eq_def]
  simp only [if_neg h]

theorem esc_pct20 (b : List Nat) :
    esc (37 :: 50 :: 48 :: b)
      = (esc b).map (fun v => '%' :: '2' :: '0' :: v) := by
  rw [esc_cons_ne92 _ (by decide), esc_cons_ne92 _ (by decide),
    esc_cons_ne92 _ (by decide), Option.map_map, Option.map_map]
  cases esc b <;> rfl

theorem esc_backslash_pct (r : List Nat) :
    esc (92 :: 37 :: r) = (esc r).map (fun v => '\\' :: '%' :: v) := by
  rw [esc.eq_def]
  simp [isOctByte]

theorem readHexAux_none_at37 :
    ∀ (n : Nat) (acc : Nat) (pre rest : List Nat), pre.length < n →
      readHexAux n acc (pre ++ 37 :: rest) = none := by
  intro n
  induction n with
  | zero => intro acc pre rest h; exact absurd h (Nat.not_lt_zero _)
  | succ m ih =>
    intro acc pre rest h
    cases pre with
    | nil => rfl
    | cons y pre' =>
      simp only [List.cons_append, readHexAux]
      cases hy : hexDigitVal y with
      | none => rfl
      | some v =>
        exact ih _ pre' rest (by simpa using Nat.lt_of_succ_lt_succ h)

/-- If the escape decoder succeeds at the head of a percent-20 sequence,
the decoded output starts with the literal characters. -/
theorem esc_persist_base {b : List Nat} {v : List Char}
    (h : esc (37 :: 50 :: 48 :: b) = some v) :
    ∃ b2, v = '%' :: '2' :: '0' :: b2 := by
  rw [esc_pct20] at h
  cases hE : esc b with
  | none => rw [hE] at h; exact absurd h (by simp)
  | some w =>
    rw [hE] at h
    simp only [Option.map_some', Option.some.injEq] at h
    exact ⟨w, h.symm⟩

/-- Persistence of a literal `%20` occurrence through a successful
escape decode: whatever escapes precede it, the decoder either walks over
them or fails, so the decoded output still contains `%20`. -/
theorem esc_persist_pct20 (b : List Nat) :
    ∀ (n : Nat) (a bs : List Nat) (v : List Char),
      a.length ≤ n → bs = a ++ 37 :: 50 :: 48 :: b → esc bs = some v →
      ∃ a2 b2, v = a2 ++ '%' :: '2' :: '0' :: b2 := by
  intro n
  induction n with
  | zero =>
    intro a bs v ha hbs hesc
    have haa : a = [] := List.length_eq_zero.mp (Nat.le_zero.mp ha)
    subst haa
    simp only [List.nil_append] at hbs
    subst hbs
    obtain ⟨b2, h2⟩ := esc_persist_base hesc
    exact ⟨[], b2, h2⟩
  | succ m ih =>
    intro a bs v ha hbs hesc
    cases a with
    | nil =>
      simp only [List.nil_append] at hbs
      subst hbs
      obtain ⟨b2, h2⟩ := esc_persist_base hesc
      exact ⟨[], b2, h2⟩
    | cons x a' =>
      simp only [List.cons_append] at hbs
      subst hbs
      simp only [List.length_cons] at ha
      have mk : ∀ (pre : List Char) (aa : List Nat) (w : List Char),
          aa.length ≤ m → esc (aa ++ 37 :: 50 :: 48 :: b) = some w →
          v = pre ++ w → ∃ a2 b2, v = a2 ++ '%' :: '2' :: '0' :: b2 := by
        intro pre aa w hlen hw hv
        obtain ⟨a2, b2, h2⟩ := ih aa _ w hlen rfl hw
        exact ⟨pre ++ a2, b2, by rw [hv, h2]; simp⟩
      by_cases hx : x = 92
      case neg =>
        rw [esc_cons_ne92 _ hx] at hesc
        cases hE : esc (a' ++ 37 :: 50 :: 48 :: b) with
        | none => rw [hE] at hesc; exact absurd hesc (by simp)
        | some w =>
          rw [hE] at hesc
          simp only [Option.map_some', Option.some.injEq] at hesc
          exact mk [Char.ofNat x] a' w (by omega) hE hesc.symm
      case pos =>
        subst hx
        cases a' with
        | nil =>
          simp only [List.nil_append] at hesc
          rw [esc_backslash_pct, esc_cons_ne92 _ (by decide),
            esc_cons_ne92 _ (by decide), Option.map_map, Option.map_map] at hesc
          cases hE : esc b with
          | none => rw [hE] at hesc; exact absurd hesc (by simp)
          | some w =>
            rw [hE] at hesc
            simp only [Option.map_some', Option.some.injEq] at hesc
            refine ⟨['\\'], w, ?_⟩
            rw [← hesc]
            rfl
        | cons e a'' =>
          simp only [List.cons_append] at hesc
          simp only [List.length_cons] at ha
          have hlen'' : a''.length ≤ m := by omega
          rw [esc.eq_3, if_pos rfl] at hesc
          have mapcase : ∀ (pre : List Char) (aa : List Nat), aa.length ≤ m →
              Option.map (fun w => pre ++ w) (esc (aa ++ 37 :: 50 :: 48 :: b)) = some v →
              ∃ a2 b2, v = a2 ++ '%' :: '2' :: '0' :: b2 := by
            intro pre aa hlen hmap
            cases hE : esc (aa ++ 37 :: 50 :: 48 :: b) with
            | none => rw [hE] at hmap; exact absurd hmap (by simp)
            | some w =>
              rw [hE] at hmap
              simp only [Option.map_some', Option.some.injEq] at hmap
              exact mk pre aa w hlen hE hmap.symm
          by_cases h10 : e = 10
          · rw [if_pos h10] at hesc
            exact ih a'' _ v hlen'' rfl hesc
          rw [if_neg h10] at hesc
          by_cases hc : e = 92
          · rw [if_pos hc] at hesc; exact mapcase ['\\'] a'' hlen'' hesc
          rw [if_neg hc] at hesc; clear hc
          by_cases hc : e = 39
          · rw [if_pos hc] at hesc; exact mapcase ['\''] a'' hlen'' hesc
          rw [if_neg hc] at hesc; clear hc
          by_cases hc : e = 34
          · rw [if_pos hc] at hesc; exact mapcase ['"'] a'' hlen'' hesc
          rw [if_neg hc] at hesc; clear hc
          by_cases hc : e = 98
          · rw [if_pos hc] at hesc; exact mapcase [Char.ofNat 8] a'' hlen'' hesc
          rw [if_neg hc] at hesc; clear hc
          by_cases hc : e = 102
          · rw [if_pos hc] at hesc; exact mapcase [Char.ofNat 12] a'' hlen'' hesc
          rw [if_neg hc] at hesc; clear hc
          by_cases hc : e = 116
          · rw [if_pos hc] at hesc; exact mapcase ['\t'] a'' hlen'' hesc
          rw [if_neg hc] at hesc; clear hc
          by_cases hc : e = 110
          · rw [if_pos hc] at hesc; exact mapcase ['\n'] a'' hlen'' hesc
          rw [if_neg hc] at hesc; clear hc
          by_cases hc : e = 114
          · rw [if_pos hc] at hesc; exact mapcase ['\r'] a'' hlen'' hesc
          rw [if_neg hc] at hesc; clear hc
          by_cases hc : e = 118
          · rw [if_pos hc] at hesc; exact mapcase [Char.ofNat 11] a'' hlen'' hesc
          rw [if_neg hc] at hesc; clear hc
          by_cases hc : e = 97
          · rw [if_pos hc] at hesc; exact mapcase [Char.ofNat 7] a'' hlen'' hesc
          rw [if_neg hc] at hesc; clear hc
          by_cases hoct : isOctByte e = true
          · rw [if_pos hoct] at hesc
            simp only at hesc
            cases a'' with
            | nil =>
              rw [show octTake2 (e - 48) ([] ++ 37 :: 50 :: 48 :: b) = (e - 48, 0) from by
                simp [octTake2, show isOctByte 37 = false from by decide]] at hesc
              simp only [List.drop_zero] at hesc
              exact mapcase [Char.ofNat (e - 48)] [] (by simp) hesc
            | cons y a3 =>
              by_cases hy : isOctByte y = true
              case neg =>
                rw [Bool.not_eq_true] at hy
                rw [show octTake2 (e - 48) ((y :: a3) ++ 37 :: 50 :: 48 :: b) = (e - 48, 0) from by
                  simp [octTake2, hy]] at hesc
                simp only [List.drop_zero] at hesc
                exact mapcase [Char.ofNat (e - 48)] (y :: a3) (by simp at ha ⊢; omega) hesc
              case pos =>
                cases a3 with
                | nil =>
                  rw [show octTake2 (e - 48) ([y] ++ 37 :: 50 :: 48 :: b)
                      = ((e - 48) * 8 + (y - 48), 1) from by
                    simp [octTake2, hy, show isOctByte 37 = false from by decide]] at hesc
                  simp only [List.cons_append, List.nil_append, List.drop_succ_cons,
                    List.drop_zero] at hesc
                  exact mapcase [Char.ofNat ((e - 48) * 8 + (y - 48))] [] (by simp) hesc
                | cons z a4 =>
                  by_cases hz : isOctByte z = true
                  case neg =>
                    rw [Bool.not_eq_true] at hz
                    rw [show octTake2 (e - 48) ((y :: z :: a4) ++ 37 :: 50 :: 48 :: b)
                        = ((e - 48) * 8 + (y - 48), 1) from by
                      simp [octTake2, hy, hz]] at hesc
                    simp only [List.cons_append, List.drop_succ_cons, List.drop_zero] at hesc
                    exact mapcase [Char.ofNat ((e - 48) * 8 + (y - 48))] (z :: a4)
                      (by simp at ha ⊢; omega) hesc
                  case pos =>
                    rw [show octTake2 (e - 48) ((y :: z :: a4) ++ 37 :: 50 :: 48 :: b)
                        = ((e - 48) * 64 + (y - 48) * 8 + (z - 48), 2) from by
                      simp [octTake2, hy, hz]] at hesc
                    simp only [List.cons_append, List.drop_succ_cons, List.drop_zero] at hesc
                    exact mapcase [Char.ofNat ((e - 48) * 64 + (y - 48) * 8 + (z - 48))] a4
                      (by simp at ha ⊢; omega) hesc
          rw [if_neg hoct] at hesc
          by_cases hc : e = 120
          · rw [if_pos hc] at hesc
            by_cases hlen2 : 2 ≤ a''.length
            · cases hR : readHex 2 (a'' ++ 37 :: 50 :: 48 :: b) with
              | none => rw [hR] at hesc; exact absurd hesc (by simp)
              | some hv =>
                rw [hR, List.drop_append_of_le_length hlen2] at hesc
                simp only at hesc
                exact mapcase [Char.ofNat hv] (a''.drop 2)
                  (by simp [List.length_drop]; omega) hesc
            · rw [show readHex 2 (a'' ++ 37 :: 50 :: 48 :: b) = none from
                readHexAux_none_at37 2 0 a'' _ (by omega)] at hesc
              exact absurd hesc (by simp)
          rw [if_neg hc] at hesc; clear hc
          by_cases hc : e = 117
          · rw [if_pos hc] at hesc
            by_cases hlen2 : 4 ≤ a''.length
            · cases hR : readHex 4 (a'' ++ 37 :: 50 :: 48 :: b) with
              | none => rw [hR] at hesc; exact absurd hesc (by simp)
              | some hv =>
                rw [hR, List.drop_append_of_le_length hlen2] at hesc
                simp only at hesc
                exact mapcase [Char.ofNat hv] (a''.drop 4)
                  (by simp [List.length_drop]; omega) hesc
            · rw [show readHex 4 (a'' ++ 37 :: 50 :: 48 :: b) = none from
                readHexAux_none_at37 4 0 a'' _ (by omega)] at hesc
              exact absurd hesc (by simp)
          rw [if_neg hc] at hesc; clear hc
          by_cases hc : e = 85
          · rw [if_pos hc] at hesc
            by_cases hlen2 : 8 ≤ a''.length
            · cases hR : readHex 8 (a'' ++ 37 :: 50 :: 48 :: b) with
              | none => rw [hR] at hesc; exact absurd hesc (by simp)
              | some hv =>
                rw [hR, List.drop_append_of_le_length hlen2] at hesc
                simp only at hesc
                by_cases hlim : hv ≤ 1114111
                · rw [if_pos hlim] at hesc
                  exact mapcase [Char.ofNat hv] (a''.drop 8)
                    (by simp [List.length_drop]; omega) hesc
                · rw [if_neg hlim] at hesc
                  exact absurd hesc (by simp)
            · rw [show readHex 8 (a'' ++ 37 :: 50 :: 48 :: b) = none from
                readHexAux_none_at37 8 0 a'' _ (by omega)] at hesc
              exact absurd hesc (by simp)
          rw [if_neg hc] at hesc; clear hc
          by_cases hc : e = 78
          · rw [if_pos hc] at hesc
            exact absurd hesc (by simp)
          rw [if_neg hc] at hesc; clear hc
          exact mapcase ['\\', Char.ofNat e] a'' hlen'' hesc

theorem cont1_ge128 {b c1 : Nat} (h : (if b = 224 then 160 ≤ c1 && c1 ≤ 191
    else if b = 237 then 128 ≤ c1 && c1 ≤ 159 else isCont c1) = true) :
    128 ≤ c1 := by
  split_ifs at h <;> simp [isCont] at h <;> omega

theorem cont2_ge128 {b c1 : Nat} (h : (if b = 240 then 144 ≤ c1 && c1 ≤ 191
    else if b = 244 then 128 ≤ c1 && c1 ≤ 143 else isCont c1) = true) :
    128 ≤ c1 := by
  split_ifs at h <;> simp [isCont] at h <;> omega

theorem utf8Step_take_ge128 (b : Nat) (rest : List Nat) :
    ∀ x ∈ rest.take (utf8Step b rest).2, 128 ≤ x := by
  by_cases h1 : b < 128
  · simp [utf8Step, h1]
  by_cases h2 : 194 ≤ b ∧ b ≤ 223
  · rcases rest with _ | ⟨c1, r1⟩
    · simp [utf8Step, h1, h2]
    by_cases hc1 : isCont c1 = true
    · intro x hx
      simp [utf8Step, h1, h2, hc1] at hx
      rw [hx]
      simp [isCont] at hc1; omega
    · simp [utf8Step, h1, h2, hc1]
  by_cases h3 : 224 ≤ b ∧ b ≤ 239
  · rcases rest with _ | ⟨c1, r1⟩
    · simp [utf8Step, h1, h2, h3]
    by_cases hC : (if b = 224 then 160 ≤ c1 && c1 ≤ 191
        else if b = 237 then 128 ≤ c1 && c1 ≤ 159 else isCont c1) = true
    · rcases r1 with _ | ⟨c2, r2⟩
      · intro x hx
        simp [utf8Step, h1, h2, h3, hC] at hx
        rw [hx]; exact cont1_ge128 hC
      by_cases hc2 : isCont c2 = true
      · intro x hx
        simp [utf8Step, h1, h2, h3, hC, hc2] at hx
        rcases hx with rfl | rfl
        · exact cont1_ge128 hC
        · simp [isCont] at hc2; omega
      · intro x hx
        simp [utf8Step, h1, h2, h3, hC, hc2] at hx
        rw [hx]; exact cont1_ge128 hC
    · simp [utf8Step, h1, h2, h3, hC]
  by_cases h4 : 240 ≤ b ∧ b ≤ 244
  · rcases rest with _ | ⟨c1, r1⟩
    · simp [utf8Step, h1, h2, h3, h4]
    by_cases hC : (if b = 240 then 144 ≤ c1 && c1 ≤ 191
        else if b = 244 then 128 ≤ c1 && c1 ≤ 143 else isCont c1) = true
    · rcases r1 with _ | ⟨c2, r2⟩
      · intro x hx
        simp [utf8Step, h1, h2, h3, h4, hC] at hx
        rw [hx]; exact cont2_ge128 hC
      by_cases hc2 : isCont c2 = true
      · rcases r2 with _ | ⟨c3, r3⟩
        · intro x hx
          simp [utf8Step, h1, h2, h3, h4, hC, hc2] at hx
          rcases hx with rfl | rfl
          · exact cont2_ge128 hC
          · simp [isCont] at hc2; omega
        by_cases hc3 : isCont c3 = true
        · intro x hx
          simp [utf8Step, h1, h2, h3, h4, hC, hc2, hc3] at hx
          rcases hx with rfl | rfl | rfl
          · exact cont2_ge128 hC
          · simp [isCont] at hc2; omega
          · simp [isCont] at hc3; omega
        · intro x hx
          simp [utf8Step, h1, h2, h3, h4, hC, hc2, hc3] at hx
          rcases hx with rfl | rfl
          · exact cont2_ge128 hC
          · simp [isCont] at hc2; omega
      · intro x hx
        simp [utf8Step, h1, h2, h3, h4, hC, hc2] at hx
        rw [hx]; exact cont2_ge128 hC
    · simp [utf8Step, h1, h2, h3, h4, hC]
  · simp [utf8Step, h1, h2, h3, h4]


theorem ascii_mem_utf8DecodeReplaceAux :
    ∀ (fuel : Nat) (bs : List Nat) (b0 : Nat), b0 < 128 → b0 ∈ bs →
      bs.length ≤ fuel → Char.ofNat b0 ∈ utf8DecodeReplaceAux fuel bs := by
  intro fuel
  induction fuel with
  | zero =>
    intro bs b0 _ hmem hlen
    have : bs = [] := List.eq_nil_of_length_eq_zero (Nat.le_zero.mp hlen)
    subst this
    simp at hmem
  | succ f ih =>
    intro bs b0 hb0 hmem hlen
    cases bs with
    | nil => simp at hmem
    | cons b rest =>
      simp only [utf8DecodeReplaceAux]
      by_cases hbb : b = b0
      · subst hbb
        have hstep : utf8Step b rest = (Char.ofNat b, 0) := by simp [utf8Step, hb0]
        rw [hstep]
        exact List.mem_cons_self _ _
      · have hmem' : b0 ∈ rest := by
          rcases List.mem_cons.mp hmem with h | h
          · exact absurd h.symm hbb
          · exact h
        have hsplit : b0 ∈ rest.take (utf8Step b rest).2
            ∨ b0 ∈ rest.drop (utf8Step b rest).2 := by
          rw [← List.mem_append, List.take_append_drop]
          exact hmem'
        rcases hsplit with h | h
        · exact absurd (utf8Step_take_ge128 b rest b0 h) (by omega)
        · refine List.mem_cons_of_mem _ (ih (rest.drop (utf8Step b rest).2) b0 hb0 h ?_)
          simp only [List.length_drop]
          simp only [List.length_cons] at hlen
          omega

theorem ascii_mem_utf8DecodeReplace {bs : List Nat} {b0 : Nat}
    (h : b0 < 128) (hm : b0 ∈ bs) : Char.ofNat b0 ∈ utf8DecodeReplace bs :=
  ascii_mem_utf8DecodeReplaceAux bs.length bs b0 h hm le_rfl



theorem unquote_pct_valid {c1 c2 : Char} {h1 h2 : Nat} (rest : Str)
    (e1 : hexDigitVal c1.toNat = some h1) (e2 : hexDigitVal c2.toNat = some h2) :
    unquote ('%' :: c1 :: c2 :: rest) = unquoteBytes [h1 * 16 + h2] rest := by
  rw [unquote.eq_def]
  simp [e1, e2]

theorem unquote_pct_invalid {c1 c2 : Char} (rest : Str)
    (e : hexDigitVal c1.toNat = none ∨ hexDigitVal c2.toNat = none) :
    unquote ('%' :: c1 :: c2 :: rest) = '%' :: unquote (c1 :: c2 :: rest) := by
  rw [unquote.eq_def]
  rcases e with e | e
  · simp [e]
  · cases e1 : hexDigitVal c1.toNat <;> simp [e1, e]

theorem unquoteBytes_nil (acc : List Nat) :
    unquoteBytes acc [] = utf8DecodeReplace acc := by
  rw [unquoteBytes.eq_def]

theorem unquoteBytes_cons_ne {c : Char} (acc : List Nat) (rest : Str)
    (h : c ≠ '%') :
    unquoteBytes acc (c :: rest) = utf8DecodeReplace acc ++ c :: unquote rest := by
  rw [unquoteBytes.eq_def]
  split
  · rename_i heq; exact absurd heq (by simp)
  · rename_i c1 c2 r heq
    injection heq with hh1 hh2
    exact absurd hh1 h
  · rename_i x c' rest' hne heq
    injection heq with hh1 hh2
    subst hh1; subst hh2; rfl

theorem unquoteBytes_pct_valid {c1 c2 : Char} {h1 h2 : Nat}
    (acc : List Nat) (rest : Str)
    (e1 : hexDigitVal c1.toNat = some h1) (e2 : hexDigitVal c2.toNat = some h2) :
    unquoteBytes acc ('%' :: c1 :: c2 :: rest)
      = unquoteBytes (acc ++ [h1 * 16 + h2]) rest := by
  rw [unquoteBytes.eq_def]
  simp [e1, e2]

theorem unquoteBytes_pct_invalid {c1 c2 : Char} (acc : List Nat) (rest : Str)
    (e : hexDigitVal c1.toNat = none ∨ hexDigitVal c2.toNat = none) :
    unquoteBytes acc ('%' :: c1 :: c2 :: rest)
      = utf8DecodeReplace acc ++ '%' :: unquote (c1 :: c2 :: rest) := by
  rw [unquoteBytes.eq_def]
  rcases e with e | e
  · simp [e]
  · cases e1 : hexDigitVal c1.toNat <;> simp [e1, e]

theorem unquoteBytes_pct_one (acc : List Nat) (c : Char) :
    unquoteBytes acc ['%', c] = utf8DecodeReplace acc ++ '%' :: unquote [c] := by
  rw [unquoteBytes.eq_def]
  rfl

theorem unquoteBytes_pct_single (acc : List Nat) :
    unquoteBytes acc ['%'] = utf8DecodeReplace acc ++ ['%'] := by
  rw [unquoteBytes.eq_def]
  rfl


theorem space_char_eq : Char.ofNat 32 = ' ' := by decide

theorem unquote_space_aux :
    ∀ n : Nat,
      (∀ s : Str, s.length ≤ n → (∃ a b, s = a ++ '%' :: '2' :: '0' :: b) →
        ' ' ∈ unquote s) ∧
      (∀ (acc : List Nat) (s : Str), s.length ≤ n →
        (32 ∈ acc ∨ ∃ a b, s = a ++ '%' :: '2' :: '0' :: b) →
        ' ' ∈ unquoteBytes acc s) := by
  intro n
  induction n with
  | zero =>
    constructor
    · rintro s hlen ⟨a, b, rfl⟩
      simp [List.length_append] at hlen
    · intro acc s hlen h
      have hs0 : s = [] := List.eq_nil_of_length_eq_zero (Nat.le_zero.mp hlen)
      subst hs0
      rcases h with h32 | ⟨a, b, hs⟩
      · rw [unquoteBytes_nil]
        exact space_char_eq ▸ ascii_mem_utf8DecodeReplace (by omega) h32
      · exact absurd hs (by simp)
  | succ m ih =>
    obtain ⟨ihU, ihB⟩ := ih
    constructor
    · rintro s hlen ⟨a, b, rfl⟩
      cases a with
      | nil =>
        simp only [List.nil_append] at hlen ⊢
        rw [@unquote_pct_valid '2' '0' 2 0 b (by decide) (by decide)]
        refine ihB [2 * 16 + 0] b ?_ (Or.inl (by norm_num))
        simp only [List.length_cons] at hlen
        omega
      | cons x a' =>
        simp only [List.cons_append] at hlen ⊢
        by_cases hx : x = '%'
        · subst hx
          rcases a' with _ | ⟨y, a''⟩
          · simp only [List.nil_append] at hlen ⊢
            rw [unquote_pct_invalid _ (Or.inl (by decide))]
            exact List.mem_cons_of_mem _ (ihU _ (by simp only [List.length_cons, List.length_append] at hlen ⊢ ; omega) ⟨[], b, rfl⟩)
          rcases a'' with _ | ⟨z, a3⟩
          · simp only [List.cons_append, List.nil_append] at hlen ⊢
            rw [unquote_pct_invalid _ (Or.inr (by decide))]
            exact List.mem_cons_of_mem _ (ihU _ (by simp only [List.length_cons, List.length_append] at hlen ⊢ ; omega) ⟨[y], b, by simp⟩)
          · simp only [List.cons_append] at hlen ⊢
            have hlen3 : (a3 ++ '%' :: '2' :: '0' :: b).length ≤ m := by
              simp only [List.length_cons, List.length_append] at hlen ⊢
              omega
            rcases hy : hexDigitVal y.toNat with _ | hv1
            · rw [unquote_pct_invalid _ (Or.inl hy)]
              refine List.mem_cons_of_mem _ (ihU _ ?_ ⟨y :: z :: a3, b, by simp⟩)
              simp only [List.length_cons, List.length_append] at hlen ⊢
              omega
            rcases hz : hexDigitVal z.toNat with _ | hv2
            · rw [unquote_pct_invalid _ (Or.inr hz)]
              refine List.mem_cons_of_mem _ (ihU _ ?_ ⟨y :: z :: a3, b, by simp⟩)
              simp only [List.length_cons, List.length_append] at hlen ⊢
              omega
            · rw [unquote_pct_valid _ hy hz]
              exact ihB _ _ hlen3 (Or.inr ⟨a3, b, rfl⟩)
        · rw [unquote_cons_ne _ hx]
          exact List.mem_cons_of_mem _ (ihU _ (by simp only [List.length_cons, List.length_append] at hlen ⊢ ; omega) ⟨a', b, rfl⟩)
    · intro acc s hlen h
      cases s with
      | nil =>
        rw [unquoteBytes_nil]
        rcases h with h32 | ⟨a, b, hs⟩
        · exact space_char_eq ▸ ascii_mem_utf8DecodeReplace (by omega) h32
        · exact absurd hs (by simp)
      | cons x rest =>
        simp only [List.length_cons] at hlen
        by_cases hx : x = '%'
        · subst hx
          rcases rest with _ | ⟨c1, rest1⟩
          · rw [unquoteBytes_pct_single]
            rcases h with h32 | ⟨a, b, hs⟩
            · exact List.mem_append.mpr (Or.inl
                (space_char_eq ▸ ascii_mem_utf8DecodeReplace (by omega) h32))
            · have := congrArg List.length hs
              simp [List.length_append] at this
              omega
          rcases rest1 with _ | ⟨c2, rest2⟩
          · rw [unquoteBytes_pct_one]
            rcases h with h32 | ⟨a, b, hs⟩
            · exact List.mem_append.mpr (Or.inl
                (space_char_eq ▸ ascii_mem_utf8DecodeReplace (by omega) h32))
            · have := congrArg List.length hs
              simp [List.length_append] at this
              omega
          · rcases hy : hexDigitVal c1.toNat with _ | hv1
            · rw [unquoteBytes_pct_invalid _ _ (Or.inl hy)]
              rcases h with h32 | ⟨a, b, hs⟩
              · exact List.mem_append.mpr (Or.inl
                  (space_char_eq ▸ ascii_mem_utf8DecodeReplace (by omega) h32))
              · cases a with
                | nil =>
                  obtain ⟨hc1, hc2, hrest⟩ : c1 = '2' ∧ c2 = '0' ∧ rest2 = b := by
                    simpa using hs
                  rw [hc1] at hy
                  exact absurd hy (by decide)
                | cons q a' =>
                  obtain ⟨hq, hrest⟩ : '%' = q ∧ c1 :: c2 :: rest2
                      = a' ++ '%' :: '2' :: '0' :: b := by
                    simpa using hs
                  refine List.mem_append.mpr (Or.inr (List.mem_cons_of_mem _
                    (ihU _ ?_ ⟨a', b, hrest⟩)))
                  simp only [List.length_cons, List.length_append] at hlen ⊢ ; omega
            rcases hz : hexDigitVal c2.toNat with _ | hv2
            · rw [unquoteBytes_pct_invalid _ _ (Or.inr hz)]
              rcases h with h32 | ⟨a, b, hs⟩
              · exact List.mem_append.mpr (Or.inl
                  (space_char_eq ▸ ascii_mem_utf8DecodeReplace (by omega) h32))
              · cases a with
                | nil =>
                  obtain ⟨hc1, hc2, hrest⟩ : c1 = '2' ∧ c2 = '0' ∧ rest2 = b := by
                    simpa using hs
                  rw [hc2] at hz
                  exact absurd hz (by decide)
                | cons q a' =>
                  obtain ⟨hq, hrest⟩ : '%' = q ∧ c1 :: c2 :: rest2
                      = a' ++ '%' :: '2' :: '0' :: b := by
                    simpa using hs
                  refine List.mem_append.mpr (Or.inr (List.mem_cons_of_mem _
                    (ihU _ ?_ ⟨a', b, hrest⟩)))
                  simp only [List.length_cons, List.length_append] at hlen ⊢ ; omega
            · rw [unquoteBytes_pct_valid _ _ hy hz]
              rcases h with h32 | ⟨a, b, hs⟩
              · refine ihB _ _ (by simp only [List.length_cons] at hlen ⊢ ; omega)
                  (Or.inl (List.mem_append.mpr (Or.inl h32)))
              · cases a with
                | nil =>
                  obtain ⟨hc1, hc2, hrest⟩ : c1 = '2' ∧ c2 = '0' ∧ rest2 = b := by
                    simpa using hs
                  rw [hc1] at hy
                  rw [hc2] at hz
                  have hv1e : hv1 = 2 := by
                    have h2 : hexDigitVal ('2').toNat = some 2 := by decide
                    rw [hy] at h2
                    exact Option.some.inj h2
                  have hv2e : hv2 = 0 := by
                    have h0 : hexDigitVal ('0').toNat = some 0 := by decide
                    rw [hz] at h0
                    exact Option.some.inj h0
                  refine ihB _ _ (by simp only [List.length_cons] at hlen ⊢ ; omega)
                    (Or.inl ?_)
                  rw [hv1e, hv2e]
                  exact List.mem_append.mpr (Or.inr (by norm_num))
                | cons q a' =>
                  obtain ⟨hq, hrest⟩ : '%' = q ∧ c1 :: c2 :: rest2
                      = a' ++ '%' :: '2' :: '0' :: b := by
                    simpa using hs
                  cases a' with
                  | nil =>
                    obtain ⟨hc1, -, -⟩ : c1 = '%' ∧ c2 = '2' ∧ rest2 = '0' :: b := by
                      simpa using hrest
                    rw [hc1, show hexDigitVal ('%').toNat = none from by decide] at hy
                    exact Option.noConfusion hy
                  | cons w a0 =>
                    obtain ⟨hc1, hrest2⟩ : c1 = w ∧ c2 :: rest2
                        = a0 ++ '%' :: '2' :: '0' :: b := by
                      simpa using hrest
                    cases a0 with
                    | nil =>
                      obtain ⟨hc2, -⟩ : c2 = '%' ∧ rest2 = '2' :: '0' :: b := by
                        simpa using hrest2
                      rw [hc2, show hexDigitVal ('%').toNat = none from by decide] at hz
                      exact Option.noConfusion hz
                    | cons u a1 =>
                      obtain ⟨hc2, hrest3⟩ : c2 = u ∧ rest2
                          = a1 ++ '%' :: '2' :: '0' :: b := by
                        simpa using hrest2
                      refine ihB _ _ ?_ (Or.inr ⟨a1, b, hrest3⟩)
                      have := congrArg List.length hrest3
                      simp only [List.length_cons, List.length_append] at hlen this ⊢ ; omega
        · rw [unquoteBytes_cons_ne _ _ hx]
          rcases h with h32 | ⟨a, b, hs⟩
          · exact List.mem_append.mpr (Or.inl
              (space_char_eq ▸ ascii_mem_utf8DecodeReplace (by omega) h32))
          · cases a with
            | nil =>
              obtain ⟨hxp, -⟩ : x = '%' ∧ rest = '2' :: '0' :: b := by
                simpa using hs
              exact absurd hxp hx
            | cons q a' =>
              obtain ⟨hq, hrest⟩ : x = q ∧ rest = a' ++ '%' :: '2' :: '0' :: b := by
                simpa using hs
              exact List.mem_append.mpr (Or.inr (List.mem_cons_of_mem _
                (ihU _ (by omega) ⟨a', b, hrest⟩)))


theorem unquote_pct_one (c : Char) :
    unquote ['%', c] = '%' :: unquote [c] := by
  rw [unquote.eq_def]
  rfl

theorem unquote_pct_lone : unquote ['%'] = ['%'] := by
  rw [unquote.eq_def]
  rfl

theorem unquote_keep_aux (c0 : Char) (hp : c0 ≠ '%')
    (hhex : hexDigitVal c0.toNat = none) :
    ∀ n : Nat,
      (∀ s : Str, s.length ≤ n → c0 ∈ s → c0 ∈ unquote s) ∧
      (∀ (acc : List Nat) (s : Str), s.length ≤ n → c0 ∈ s →
        c0 ∈ unquoteBytes acc s) := by
  intro n
  have hne : ∀ (c : Char) (hv : Nat), hexDigitVal c.toNat = some hv → c0 ≠ c := by
    intro c hv hc heq
    rw [heq, hc] at hhex
    exact Option.noConfusion hhex
  induction n with
  | zero =>
    constructor
    · intro s hlen hm
      have : s = [] := List.eq_nil_of_length_eq_zero (Nat.le_zero.mp hlen)
      subst this; simp at hm
    · intro acc s hlen hm
      have : s = [] := List.eq_nil_of_length_eq_zero (Nat.le_zero.mp hlen)
      subst this; simp at hm
  | succ m ih =>
    obtain ⟨ihU, ihB⟩ := ih
    constructor
    · intro s hlen hm
      cases s with
      | nil => simp at hm
      | cons x rest =>
        simp only [List.length_cons] at hlen
        by_cases hx : x = '%'
        · subst hx
          rcases rest with _ | ⟨c1, rest1⟩
          · simp at hm
            exact absurd hm hp
          rcases rest1 with _ | ⟨c2, rest2⟩
          · rw [unquote_pct_one]
            rcases List.mem_cons.mp hm with h | h
            · exact absurd h hp
            · exact List.mem_cons_of_mem _ (ihU [c1] (by simp at hlen ⊢ ; omega) h)
          · rcases hy : hexDigitVal c1.toNat with _ | hv1
            · rw [unquote_pct_invalid _ (Or.inl hy)]
              rcases List.mem_cons.mp hm with h | h
              · exact absurd h hp
              · exact List.mem_cons_of_mem _
                  (ihU _ (by simp only [List.length_cons] at hlen ⊢ ; omega) h)
            rcases hz : hexDigitVal c2.toNat with _ | hv2
            · rw [unquote_pct_invalid _ (Or.inr hz)]
              rcases List.mem_cons.mp hm with h | h
              · exact absurd h hp
              · exact List.mem_cons_of_mem _
                  (ihU _ (by simp only [List.length_cons] at hlen ⊢ ; omega) h)
            · rw [unquote_pct_valid _ hy hz]
              have hm2 : c0 ∈ rest2 := by
                rcases List.mem_cons.mp hm with h | h
                · exact absurd h hp
                rcases List.mem_cons.mp h with h2 | h2
                · exact absurd h2 (hne c1 hv1 hy)
                rcases List.mem_cons.mp h2 with h3 | h3
                · exact absurd h3 (hne c2 hv2 hz)
                · exact h3
              exact ihB _ rest2
                (by simp only [List.length_cons] at hlen ⊢ ; omega) hm2
        · rw [unquote_cons_ne _ hx]
          rcases List.mem_cons.mp hm with h | h
          · exact h ▸ List.mem_cons_self _ _
          · exact List.mem_cons_of_mem _ (ihU rest (by omega) h)
    · intro acc s hlen hm
      cases s with
      | nil => simp at hm
      | cons x rest =>
        simp only [List.length_cons] at hlen
        by_cases hx : x = '%'
        · subst hx
          rcases rest with _ | ⟨c1, rest1⟩
          · simp at hm
            exact absurd hm hp
          rcases rest1 with _ | ⟨c2, rest2⟩
          · rw [unquoteBytes_pct_one]
            rcases List.mem_cons.mp hm with h | h
            · exact absurd h hp
            · exact List.mem_append.mpr (Or.inr
                (List.mem_cons_of_mem _ (ihU [c1] (by simp at hlen ⊢ ; omega) h)))
          · rcases hy : hexDigitVal c1.toNat with _ | hv1
            · rw [unquoteBytes_pct_invalid _ _ (Or.inl hy)]
              rcases List.mem_cons.mp hm with h | h
              · exact absurd h hp
              · exact List.mem_append.mpr (Or.inr (List.mem_cons_of_mem _
                  (ihU _ (by simp only [List.length_cons] at hlen ⊢ ; omega) h)))
            rcases hz : hexDigitVal c2.toNat with _ | hv2
            · rw [unquoteBytes_pct_invalid _ _ (Or.inr hz)]
              rcases List.mem_cons.mp hm with h | h
              · exact absurd h hp
              · exact List.mem_append.mpr (Or.inr (List.mem_cons_of_mem _
                  (ihU _ (by simp only [List.length_cons] at hlen ⊢ ; omega) h)))
            · rw [unquoteBytes_pct_valid _ _ hy hz]
              have hm2 : c0 ∈ rest2 := by
                rcases List.mem_cons.mp hm with h | h
                · exact absurd h hp
                rcases List.mem_cons.mp h with h2 | h2
                · exact absurd h2 (hne c1 hv1 hy)
                rcases List.mem_cons.mp h2 with h3 | h3
                · exact absurd h3 (hne c2 hv2 hz)
                · exact h3
              exact ihB _ rest2
                (by simp only [List.length_cons] at hlen ⊢ ; omega) hm2
        · rw [unquoteBytes_cons_ne _ _ hx]
          rcases List.mem_cons.mp hm with h | h
          · exact List.mem_append.mpr (Or.inr (h ▸ List.mem_cons_self _ _))
          · exact List.mem_append.mpr (Or.inr
              (List.mem_cons_of_mem _ (ihU rest (by omega) h)))

theorem unquote_keep {c0 : Char} {s : Str} (hp : c0 ≠ '%')
    (hhex : hexDigitVal c0.toNat = none) (hm : c0 ∈ s) : c0 ∈ unquote s :=
  (unquote_keep_aux c0 hp hhex s.length).1 s le_rfl hm


theorem unquote_space {w : Str} (h : ∃ a b, w = a ++ '%' :: '2' :: '0' :: b) :
    ' ' ∈ unquote w :=
  (unquote_space_aux w.length).1 w le_rfl h

theorem utf8Encode_append (x y : Str) :
    utf8Encode (x ++ y) = utf8Encode x ++ utf8Encode y := by
  simp [utf8Encode]

theorem esc_append_no92 {a : List Nat} (t : List Nat) (h : ∀ x ∈ a, x ≠ 92) :
    esc (a ++ t) = (esc t).map (fun v => a.map Char.ofNat ++ v) := by
  induction a with
  | nil =>
    simp only [List.nil_append, List.map_nil]
    cases esc t <;> rfl
  | cons x a' ih =>
    rw [List.cons_append, esc_cons_ne92 _ (h x (List.mem_cons_self x a')),
      ih (fun y hy => h y (List.mem_cons_of_mem x hy)), Option.map_map]
    cases esc t <;> rfl

theorem esc_u003d (b : List Nat) :
    esc (92 :: 117 :: 48 :: 48 :: 51 :: 100 :: b)
      = (esc b).map (fun v => '=' :: v) := by
  rw [esc.eq_3, if_pos rfl]
  norm_num [isOctByte, readHex, readHexAux, hexDigitVal]

theorem utf8EncodeChar_no92 {c : Char} (h : c ≠ '\\') :
    ∀ x ∈ utf8EncodeChar c, x ≠ 92 := by
  intro x hx
  simp only [utf8EncodeChar] at hx
  split_ifs at hx with h1 h2 h3
  · simp at hx; subst hx; exact toNat_ne_92 h
  · simp at hx; rcases hx with rfl | rfl <;> omega
  · simp at hx; rcases hx with rfl | rfl | rfl <;> omega
  · simp at hx; rcases hx with rfl | rfl | rfl | rfl <;> omega

theorem utf8Encode_no92 {s : Str} (h : ∀ c ∈ s, c ≠ '\\') :
    ∀ x ∈ utf8Encode s, x ≠ 92 := by
  intro x hx
  unfold utf8Encode at hx
  rcases List.mem_flatMap.mp hx with ⟨c, hc, hm⟩
  exact utf8EncodeChar_no92 (h c hc) x hm

theorem decodeOpt_plain {u : Str}
    (h : ∀ c ∈ u, c.toNat < 128 ∧ c ≠ '\\') :
    decodeOpt u = some (unquote u) := by
  have henc : utf8Encode u = u.map Char.toNat :=
    utf8Encode_ascii fun c hc => (h c hc).1
  have hesc : esc (utf8Encode u) = some ((u.map Char.toNat).map Char.ofNat) := by
    rw [henc]
    refine esc_no_backslash fun b hb => ?_
    rcases List.mem_map.mp hb with ⟨c, hc, rfl⟩
    exact toNat_ne_92 (h c hc).2
  have hid : (Char.ofNat ∘ Char.toNat) = id := by
    funext c; simp [Char.ofNat_toNat]
  unfold decodeOpt
  rw [hesc, List.map_map, hid, List.map_id]
  rfl


/-- Claim C6 as amended: when escape decoding succeeds, a URL containing
`%20` decodes to a string containing a literal space; a URL of the form
`a ++ backslash-u003d ++ b` with no backslash in `a` or `b` decodes to a
string containing `=`; and an ASCII URL containing no backslash and no
percent sign is returned unchanged. -/
theorem C6_normalization_amended :
    (∀ u v : Str, decodeOpt u = some v → hasSub "%20".data u = true →
      ' ' ∈ v) ∧
    (∀ a b : Str, (∀ c ∈ a, c ≠ '\\') → (∀ c ∈ b, c ≠ '\\') →
      '=' ∈ decode_url (a ++ "\\u003d".data ++ b)) ∧
    (∀ u : Str, (∀ c ∈ u, c.toNat < 128 ∧ c ≠ '\\' ∧ c ≠ '%') →
      decode_url u = u) := by
  refine ⟨?_, ?_, fun u hu => decode_url_id hu⟩
  · intro u v hdec hsub
    unfold decodeOpt at hdec
    cases hE : esc (utf8Encode u) with
    | none => rw [hE] at hdec; exact absurd hdec (by simp)
    | some w =>
      rw [hE] at hdec
      simp only [Option.map_some', Option.some.injEq] at hdec
      obtain rfl : v = unquote w := hdec.symm
      obtain ⟨a, b, rfl⟩ := hasSub_iff.mp hsub
      have hbytes : utf8Encode (a ++ "%20".data ++ b)
          = utf8Encode a ++ 37 :: 50 :: 48 :: utf8Encode b := by
        rw [show a ++ "%20".data ++ b = a ++ ("%20".data ++ b) from by simp]
        rw [utf8Encode, List.flatMap_append, List.flatMap_append]
        rfl
      rw [hbytes] at hE
      obtain ⟨a2, b2, hw⟩ := esc_persist_pct20 (utf8Encode b)
        (utf8Encode a).length (utf8Encode a) _ w le_rfl rfl hE
      exact unquote_space ⟨a2, b2, hw⟩
  · intro a b ha hb
    have hbytes : utf8Encode (a ++ "\\u003d".data ++ b)
        = utf8Encode a ++ (92 :: 117 :: 48 :: 48 :: 51 :: 100 :: utf8Encode b) := by
      rw [show a ++ "\\u003d".data ++ b = a ++ ("\\u003d".data ++ b) from by simp]
      rw [utf8Encode, List.flatMap_append, List.flatMap_append]
      rfl
    have hEmid := esc_u003d (utf8Encode b)
    rw [esc_no_backslash (utf8Encode_no92 hb)] at hEmid
    have hE : esc (utf8Encode (a ++ "\\u003d".data ++ b))
        = some ((utf8Encode a).map Char.ofNat
            ++ '=' :: (utf8Encode b).map Char.ofNat) := by
      rw [hbytes, esc_append_no92 _ (utf8Encode_no92 ha), hEmid]
      rfl
    unfold decode_url
    rw [hE]
    refine unquote_keep (by decide) (by decide) ?_
    exact List.mem_append.mpr (Or.inr (List.mem_cons_self _ _))


/-- Counterexample to claim C6 as stated: a URL that contains `%20` but
also a malformed backslash escape makes the whole normalization raise,
so `decode_url` returns it unchanged and the output contains no literal
space. -/
theorem C6_normalization_counterexample :
    hasSub "%20".data "http://e.co/a%20b\\u00zz.jpg".data = true ∧
    decode_url "http://e.co/a%20b\\u00zz.jpg".data
      = "http://e.co/a%20b\\u00zz.jpg".data ∧
    ¬ ' ' ∈ decode_url "http://e.co/a%20b\\u00zz.jpg".data := by
  have hsplit : "http://e.co/a%20b\\u00zz.jpg".data
      = "http://e.co/a%20b".data ++ "\\u00zz.jpg".data := by decide
  have htail : utf8Encode "\\u00zz.jpg".data
      = 92 :: 117 :: 48 :: 48 :: 122 :: 122 :: utf8Encode ".jpg".data := by decide
  have htailnone : esc (utf8Encode "\\u00zz.jpg".data) = none := by
    rw [htail, esc.eq_3, if_pos rfl]
    norm_num [isOctByte, readHex, readHexAux, hexDigitVal]
  have hno : ∀ x ∈ utf8Encode "http://e.co/a%20b".data, x ≠ 92 :=
    utf8Encode_no92 (by decide)
  have hnone : esc (utf8Encode "http://e.co/a%20b\\u00zz.jpg".data) = none := by
    rw [hsplit, utf8Encode_append, esc_append_no92 _ hno, htailnone]
    rfl
  have hunchanged : decode_url "http://e.co/a%20b\\u00zz.jpg".data
      = "http://e.co/a%20b\\u00zz.jpg".data := by
    unfold decode_url
    rw [hnone]
  exact ⟨by decide, hunchanged, by rw [hunchanged]; decide⟩

/-- Witness for C6's amended properties at concrete URLs. -/
theorem C6_normalization_amended_witness :
    (' ' ∈ unquote "x%20y".data) ∧
    ('=' ∈ decode_url ("ab".data ++ "\\u003d".data ++ "cd".data)) ∧
    decode_url "http://plain.example/ok.jpg".data
      = "http://plain.example/ok.jpg".data := by
  refine ⟨?_, ?_, ?_⟩
  · exact C6_normalization_amended.1 "x%20y".data _
      (decodeOpt_plain (by decide)) (by decide)
  · exact C6_normalization_amended.2.1 "ab".data "cd".data (by decide) (by decide)
  · exact C6_normalization_amended.2.2 _ (by decide)

theorem mem_insertLenDesc {x y : Str} {l : List Str} :
    y ∈ insertLenDesc x l ↔ y = x ∨ y ∈ l := by
  induction l with
  | nil => simp [insertLenDesc]
  | cons z zs ih =>
    simp only [insertLenDesc]
    split
    · simp [List.mem_cons]
    · simp only [List.mem_cons, ih]; tauto

theorem perm_insertLenDesc (x : Str) (l : List Str) :
    (insertLenDesc x l).Perm (x :: l) := by
  induction l with
  | nil => simp [insertLenDesc]
  | cons z zs ih =>
    simp only [insertLenDesc]
    split
    · exact List.Perm.refl _
    · exact (ih.cons z).trans (List.Perm.swap x z zs)

theorem perm_sortLenDesc (l : List Str) : (sortLenDesc l).Perm l := by
  induction l with
  | nil => simp [sortLenDesc]
  | cons x xs ih =>
    simp only [sortLenDesc]
    exact (perm_insertLenDesc x (sortLenDesc xs)).trans (ih.cons x)

theorem pairwise_insertLenDesc {x : Str} {l : List Str}
    (h : l.Pairwise (fun a b => b.length ≤ a.length)) :
    (insertLenDesc x l).Pairwise (fun a b => b.length ≤ a.length) := by
  induction l with
  | nil => simp [insertLenDesc]
  | cons z zs ih =>
    simp only [insertLenDesc]
    have h2 := List.pairwise_cons.mp h
    split
    · rename_i hc
      refine List.Pairwise.cons ?_ h
      intro y hy
      rcases List.mem_cons.mp hy with rfl | hy
      · exact hc
      · exact le_trans (h2.1 y hy) hc
    · rename_i hc
      refine List.Pairwise.cons ?_ (ih h2.2)
      intro y hy
      rcases mem_insertLenDesc.mp hy with rfl | hy
      · omega
      · exact h2.1 y hy

theorem pairwise_sortLenDesc (l : List Str) :
    (sortLenDesc l).Pairwise (fun a b => b.length ≤ a.length) := by
  induction l with
  | nil => simp [sortLenDesc]
  | cons x xs ih =>
    simp only [sortLenDesc]
    exact pairwise_insertLenDesc ih

theorem filter_insertLenDesc (x : Str) (l : List Str) (L : Nat) :
    (insertLenDesc x l).filter (fun s => s.length = L)
      = if x.length = L then x :: l.filter (fun s => s.length = L)
        else l.filter (fun s => s.length = L) := by
  induction l with
  | nil =>
    simp only [insertLenDesc, List.filter]
    by_cases hx : x.length = L <;> simp [hx]
  | cons z zs ih =>
    simp only [insertLenDesc]
    split
    · rename_i hc
      by_cases hx : x.length = L <;> simp [List.filter_cons, hx]
    · rename_i hc
      by_cases hx : x.length = L <;> by_cases hz : z.length = L
      · omega
      · simp [List.filter_cons, hx, hz, ih]
      · simp [List.filter_cons, hx, hz, ih]
      · simp [List.filter_cons, hx, hz, ih]

theorem filter_sortLenDesc (l : List Str) (L : Nat) :
    (sortLenDesc l).filter (fun s => s.length = L)
      = l.filter (fun s => s.length = L) := by
  induction l with
  | nil => rfl
  | cons x xs ih =>
    simp only [sortLenDesc, filter_insertLenDesc, ih, List.filter_cons]
    by_cases hx : x.length = L <;> simp [hx]

theorem stripCI_decomp {p s r : Str} (h : stripCI p s = some r) :
    s = s.take p.length ++ r ∧ (s.take p.length).length = p.length := by
  induction p generalizing s with
  | nil =>
    simp only [stripCI, Option.some.injEq] at h
    subst h; simp
  | cons a as ih =>
    cases s with
    | nil => simp [stripCI] at h
    | cons c cs =>
      simp only [stripCI] at h
      split at h
      · obtain ⟨h1, h2⟩ := ih h
        refine ⟨?_, ?_⟩
        · simpa only [List.length_cons, List.take_succ_cons, List.cons_append]
            using congrArg (List.cons c) h1
        · simp only [List.length_cons, List.take_succ_cons, h2]
      · exact absurd h (by simp)

theorem stripCI_replace {p pre r z : Str} (h : stripCI p (pre ++ r) = some r)
    (hl : pre.length = p.length) : stripCI p (pre ++ z) = some z := by
  induction p generalizing pre with
  | nil =>
    have : pre = [] := List.eq_nil_of_length_eq_zero hl
    subst this; simp [stripCI]
  | cons a as ih =>
    cases pre with
    | nil => simp at hl
    | cons c cs =>
      simp only [List.cons_append, stripCI] at h ⊢
      split at h
      · rename_i hc
        rw [if_pos hc]
        exact ih h (by simpa using hl)
      · exact absurd h (by simp)

theorem take_all_of_le_takeWhile {p : Char → Bool} {l : Str} {n : Nat}
    (h : n ≤ (l.takeWhile p).length) : ∀ x ∈ l.take n, p x = true := by
  induction l generalizing n with
  | nil => simp
  | cons c cs ih =>
    cases n with
    | zero => simp
    | succ m =>
      by_cases hc : p c
      · simp only [List.takeWhile_cons, if_pos hc, List.length_cons] at h
        intro x hx
        rcases List.mem_cons.mp (by simpa using hx) with rfl | hx
        · exact hc
        · exact ih (by omega) x hx
      · simp [List.takeWhile_cons, hc] at h

theorem findExt_spec {alts : List Str} {r2 : Str} {elen : Nat} {q : Str}
    (h : findExt alts r2 = some (elen, q)) :
    ∃ e ∈ alts, e.length = elen ∧ stripCI e r2 = some q := by
  induction alts with
  | nil => simp [findExt] at h
  | cons e es ih =>
    simp only [findExt] at h
    split at h
    · rename_i q' hq'
      simp only [Option.some.injEq, Prod.mk.injEq] at h
      exact ⟨e, List.mem_cons_self e es, h.1, h.2 ▸ hq'⟩
    · obtain ⟨e', he', h1, h2⟩ := ih h
      exact ⟨e', List.mem_cons_of_mem e he', h1, h2⟩

theorem extTail_spec {cls : Char → Bool} {hq : Bool} {r : Str} {k : Nat}
    (h : extTail cls hq r = some k) :
    ∃ r2 elen q, r = '.' :: r2 ∧ findExt extAlts r2 = some (elen, q) ∧
      k = 1 + elen + queryLen cls hq q := by
  unfold extTail at h
  split at h
  · rename_i r2
    split at h
    · rename_i elen q hfind
      simp only [Option.some.injEq] at h
      exact ⟨r2, elen, q, rfl, hfind, h.symm⟩
    · exact absurd h (by simp)
  · exact absurd h (by simp)

theorem bodySearch_spec {cls : Char → Bool} {hq : Bool} {s3 : Str} {t : Nat} :
    ∀ {jmax : Nat}, bodySearch cls hq s3 jmax = some t →
    ∃ j k, 1 ≤ j ∧ j ≤ jmax ∧ extTail cls hq (s3.drop j) = some k ∧ t = j + k := by
  intro jmax
  induction jmax with
  | zero => intro h; simp [bodySearch] at h
  | succ j ih =>
    intro h
    simp only [bodySearch] at h
    split at h
    · rename_i k hk
      simp only [Option.some.injEq] at h
      exact ⟨j + 1, k, by omega, le_refl _, hk, h.symm⟩
    · obtain ⟨j', k', h1, h2, h3, h4⟩ := ih h
      exact ⟨j', k', h1, by omega, h3, h4⟩

theorem take_takeWhile_len (p : Char → Bool) (l : Str) :
    l.take (l.takeWhile p).length = l.takeWhile p := by
  induction l with
  | nil => rfl
  | cons c cs ih =>
    by_cases hc : p c
    · simp [List.takeWhile_cons, hc, ih]
    · simp [List.takeWhile_cons, hc]

theorem class1_sub_class2 : ∀ c, class1Char c = true → class2Char c = true := by
  intro c h
  simp only [class1Char, Bool.not_eq_true', Bool.or_eq_false_iff] at h
  simp only [class2Char, Bool.not_eq_true', Bool.or_eq_false_iff]
  exact ⟨⟨h.1.1.1.1, h.1.1.1.2⟩, h.1.1.2⟩

theorem class3_sub_class2 : ∀ c, class3Char c = true → class2Char c = true := by
  intro c h
  simp only [class3Char, Bool.not_eq_true', Bool.or_eq_false_iff] at h
  simp only [class2Char, Bool.not_eq_true', Bool.or_eq_false_iff]
  exact ⟨⟨h.1.1.1.1.1.1.1.1, h.1.1.1.1.1.1.1.2⟩, h.1.1.1.1.1.1.2⟩

theorem queryLen_le {cls : Char → Bool} {hq : Bool} {q : Str} :
    queryLen cls hq q ≤ q.length := by
  cases q with
  | nil => simp [queryLen]
  | cons c q2 =>
    simp only [queryLen]
    split
    · split
      · have := (@List.takeWhile_sublist Char q2 cls).length_le
        simp only [List.length_cons]
        omega
      · simp
    · simp

theorem stripCI_decomp_ex {p s r : Str} (h : stripCI p s = some r) :
    ∃ pre, s = pre ++ r ∧ pre.length = p.length :=
  ⟨s.take p.length, (stripCI_decomp h).1, (stripCI_decomp h).2⟩

theorem queryLen_cases (cls : Char → Bool) (hq : Bool) (q : Str) :
    queryLen cls hq q = 0 ∨
    (∃ qc q2, q = qc :: q2 ∧ (qc = '?' || qc = '&') = true ∧
      queryLen cls hq q = 1 + (q2.takeWhile cls).length) := by
  cases q with
  | nil => left; cases hq <;> simp [queryLen]
  | cons qc q2 =>
    by_cases hb : (qc = '?' || qc = '&') = true
    · cases hhq : hq
      · left; simp [queryLen]
      · right; exact ⟨qc, q2, rfl, hb, by simp [queryLen, hb]⟩
    · left; cases hq <;> simp [queryLen] <;> simp at hb <;> simp [hb]

theorem body_shaped {cls : Char → Bool} {hq : Bool}
    (hcls : ∀ c, cls c = true → class2Char c = true)
    {s3 : Str} {jb k : Nat}
    (hjb1 : 1 ≤ jb) (hjbmax : jb ≤ (s3.takeWhile cls).length)
    (hext : extTail cls hq (s3.drop jb) = some k) :
    (List.range (s3.take (jb + k)).length).any (fun j =>
      ((s3.take (jb + k)).take (j + 1)).all class2Char &&
      shapedTail ((s3.take (jb + k)).drop (j + 1))) = true := by
  obtain ⟨r2, elen, q, hdrop, hfind, hk⟩ := extTail_spec hext
  obtain ⟨e, he, helen, hstrip⟩ := findExt_spec hfind
  obtain ⟨pre, hpre1, hpre2⟩ := stripCI_decomp_ex hstrip
  rw [helen] at hpre2
  have hql := @queryLen_le cls hq q
  have hdlen : s3.length - jb = r2.length + 1 := by
    have hh := congrArg List.length hdrop
    simpa [List.length_drop] using hh
  have hr2l : r2.length = elen + q.length := by
    have hh := congrArg List.length hpre1
    simp only [List.length_append, hpre2] at hh
    omega
  have hkle : jb + k ≤ s3.length := by omega
  have htlen : (s3.take (jb + k)).length = jb + k := by
    simp only [List.length_take]; omega
  rw [List.any_eq_true]
  refine ⟨jb - 1, List.mem_range.mpr (by rw [htlen]; omega), ?_⟩
  have hj1 : jb - 1 + 1 = jb := by omega
  rw [hj1, Bool.and_eq_true]
  constructor
  · rw [List.take_take]
    have hmin : min jb (jb + k) = jb := by omega
    rw [hmin, List.all_eq_true]
    intro x hx
    exact hcls x (take_all_of_le_takeWhile hjbmax x hx)
  · rw [List.drop_take]
    have hsub : jb + k - jb = k := by omega
    rw [hsub, hdrop, hk]
    have hadd : 1 + elen + queryLen cls hq q = (elen + queryLen cls hq q) + 1 := by omega
    rw [hadd, List.take_succ_cons]
    simp only [shapedTail]
    rw [List.any_eq_true]
    refine ⟨e, he, ?_⟩
    rcases queryLen_cases cls hq q with hql0 | ⟨qc, q2, hqeq, hqc, hqlv⟩
    · rw [hql0, Nat.add_zero]
      have htk : r2.take elen = pre := by
        rw [hpre1, ← hpre2, List.take_left]
      rw [htk]
      have hrep : stripCI e (pre ++ ([] : Str)) = some [] :=
        stripCI_replace (hpre1 ▸ hstrip) (hpre2.trans helen.symm)
      rw [List.append_nil] at hrep
      rw [hrep]
    · have htk : r2.take (elen + queryLen cls hq q)
          = pre ++ q.take (queryLen cls hq q) := by
        rw [hpre1, ← hpre2, List.take_append]
      rw [htk]
      have hrep : stripCI e (pre ++ q.take (queryLen cls hq q))
          = some (q.take (queryLen cls hq q)) :=
        stripCI_replace (hpre1 ▸ hstrip) (hpre2.trans helen.symm)
      rw [hrep]
      rw [hqlv, hqeq]
      have h1L : 1 + (q2.takeWhile cls).length = (q2.takeWhile cls).length + 1 := by omega
      rw [h1L, List.take_succ_cons, take_takeWhile_len]
      simp only [hqc, Bool.true_and]
      rw [List.all_eq_true]
      intro x hx
      exact hcls x (List.mem_takeWhile_imp hx)

theorem matchAt_shaped {cls : Char → Bool} {hq : Bool}
    (hcls : ∀ c, cls c = true → class2Char c = true)
    {s : Str} {len : Nat} (h : matchAt cls hq s = some len) :
    isImageUrlShaped (s.take len) = true := by
  unfold matchAt at h
  split at h
  · exact absurd h (by simp)
  · rename_i s1 h1
    cases s1 with
    | nil =>
      have hnil : stripCI "://".data ([] : Str) = none := by decide
      simp only [hnil] at h
      exact absurd h (by simp)
    | cons c rest =>
      by_cases hc : c.toLower = 's'
      · simp only [if_pos hc] at h
        split at h
        · exact absurd h (by simp)
        · rename_i s3 h3
          split at h
          · rename_i t hb
            simp only [Option.some.injEq] at h
            obtain ⟨jb, k, hjb1, hjbmax, hext, ht⟩ := bodySearch_spec hb
            subst ht
            obtain ⟨pre1, hs_eq, hs_len⟩ := stripCI_decomp_ex h1
            obtain ⟨pre3, hr_eq, hr_len⟩ := stripCI_decomp_ex h3
            have hs_len4 : pre1.length = 4 := by
              rw [hs_len]; decide
            have hr_len3 : pre3.length = 3 := by
              rw [hr_len]; decide
            have hstake : s.take len
                = pre1 ++ (c :: (pre3 ++ s3.take (jb + k))) := by
              rw [← h, hs_eq]
              have e1 : 5 + 3 + (jb + k) = pre1.length + (4 + (jb + k)) := by omega
              rw [e1, List.take_append]
              have e2 : 4 + (jb + k) = (3 + (jb + k)) + 1 := by omega
              rw [e2, List.take_succ_cons]
              rw [hr_eq]
              have e3 : 3 + (jb + k) = pre3.length + (jb + k) := by omega
              rw [e3, List.take_append]
            have hrep1 : stripCI "http".data
                (pre1 ++ (c :: (pre3 ++ s3.take (jb + k))))
                = some (c :: (pre3 ++ s3.take (jb + k))) :=
              stripCI_replace (hs_eq ▸ h1) hs_len
            have hrep3 : stripCI "://".data (pre3 ++ s3.take (jb + k))
                = some (s3.take (jb + k)) :=
              stripCI_replace (hr_eq ▸ h3) hr_len
            have hscheme : schemeSplit (pre1 ++ (c :: (pre3 ++ s3.take (jb + k))))
                = some (s3.take (jb + k)) := by
              simp only [schemeSplit, hrep1]
              rw [if_pos hc]
              exact hrep3
            rw [hstake]
            simp only [isImageUrlShaped, hscheme]
            exact body_shaped hcls hjb1 hjbmax hext
          · exact absurd h (by simp)
      · simp only [if_neg hc] at h
        split at h
        · exact absurd h (by simp)
        · rename_i s3 h3
          split at h
          · rename_i t hb
            simp only [Option.some.injEq] at h
            obtain ⟨jb, k, hjb1, hjbmax, hext, ht⟩ := bodySearch_spec hb
            subst ht
            obtain ⟨pre1, hs_eq, hs_len⟩ := stripCI_decomp_ex h1
            obtain ⟨pre3, hr_eq, hr_len⟩ := stripCI_decomp_ex h3
            have hs_len4 : pre1.length = 4 := by
              rw [hs_len]; decide
            have hr_len3 : pre3.length = 3 := by
              rw [hr_len]; decide
            cases pre3 with
            | nil => simp at hr_len3
            | cons d pre3' =>
              rw [List.cons_append] at hr_eq
              have hdc : d = c := by
                injection hr_eq with hh h2
                exact hh.symm
              subst hdc
              have hrest : rest = pre3' ++ s3 := by
                injection hr_eq
              have hp3len : pre3'.length = 2 := by
                simp only [List.length_cons] at hr_len3; omega
              have hstake : s.take len
                  = pre1 ++ (d :: (pre3' ++ s3.take (jb + k))) := by
                rw [← h, hs_eq]
                have e1 : 4 + 3 + (jb + k) = pre1.length + (3 + (jb + k)) := by omega
                rw [e1, List.take_append]
                have e2 : 3 + (jb + k) = (2 + (jb + k)) + 1 := by omega
                rw [e2, List.take_succ_cons]
                rw [hrest]
                have e3 : 2 + (jb + k) = pre3'.length + (jb + k) := by omega
                rw [e3, List.take_append]
              have hrep1 : stripCI "http".data
                  (pre1 ++ (d :: (pre3' ++ s3.take (jb + k))))
                  = some (d :: (pre3' ++ s3.take (jb + k))) :=
                stripCI_replace (hs_eq ▸ h1) hs_len
              have h3x : stripCI "://".data ((d :: pre3') ++ s3) = some s3 := by
                rw [List.cons_append, ← hrest]; exact h3
              have hrep3 : stripCI "://".data ((d :: pre3') ++ s3.take (jb + k))
                  = some (s3.take (jb + k)) :=
                stripCI_replace h3x hr_len
              have hscheme : schemeSplit (pre1 ++ (d :: (pre3' ++ s3.take (jb + k))))
                  = some (s3.take (jb + k)) := by
                simp only [schemeSplit, hrep1]
                rw [if_neg hc]
                rw [← List.cons_append]
                exact hrep3
              rw [hstake]
              simp only [isImageUrlShaped, hscheme]
              exact body_shaped hcls hjb1 hjbmax hext
          · exact absurd h (by simp)

theorem scanAux_mem {cls : Char → Bool} {hq : Bool} {m : Str} :
    ∀ {fuel : Nat} {s : Str}, m ∈ scanAux cls hq fuel s →
    ∃ u len, matchAt cls hq u = some len ∧ m = u.take len := by
  intro fuel
  induction fuel with
  | zero => intro s h; simp [scanAux] at h
  | succ n ih =>
    intro s h
    cases s with
    | nil => simp [scanAux] at h
    | cons c rest =>
      simp only [scanAux] at h
      split at h
      · rename_i len hm
        rcases List.mem_cons.mp h with rfl | h
        · exact ⟨c :: rest, len, hm, rfl⟩
        · exact ih h
      · exact ih h

theorem firstMatch_mem {cls : Char → Bool} {hq : Bool} {m : Str} :
    ∀ {s : Str}, firstMatch cls hq s = some m →
    ∃ u len, matchAt cls hq u = some len ∧ m = u.take len := by
  intro s
  induction s with
  | nil => intro h; simp [firstMatch] at h
  | cons c rest ih =>
    intro h
    simp only [firstMatch] at h
    split at h
    · rename_i len hm
      simp only [Option.some.injEq] at h
      exact ⟨c :: rest, len, hm, h.symm⟩
    · exact ih h

theorem scanMatches_shaped {cls : Char → Bool} {hq : Bool} {text m : Str}
    (hcls : ∀ c, cls c = true → class2Char c = true)
    (h : m ∈ scanMatches cls hq text) : isImageUrlShaped m = true := by
  obtain ⟨u, len, hm, rfl⟩ := scanAux_mem h
  exact matchAt_shaped hcls hm

theorem mem_extract_cases {scripts metas : List Str} {allText m : Str}
    (h : m ∈ extract_urls_from_page_data scripts metas allText) :
    (∃ content ∈ scripts,
       m ∈ (scanMatches class1Char true content).filter method1Keep) ∨
    (∃ content ∈ metas, firstMatch class2Char false content = some m ∧
       hasSub "encrypted-tbn".data m = false) ∨
    m ∈ (scanMatches class3Char true allText).filter method3Keep := by
  unfold extract_urls_from_page_data at h
  rw [(perm_sortLenDesc _).mem_iff, mem_dedupFirst, List.mem_append,
    List.mem_append] at h
  rcases h with (h | h) | h
  · left
    rw [List.mem_flatMap] at h
    obtain ⟨content, hcont, hm⟩ := h
    refine ⟨content, hcont, ?_⟩
    split at hm
    · exact hm
    · simp at hm
  · right; left
    rw [List.mem_flatMap] at h
    obtain ⟨content, hcont, hm⟩ := h
    refine ⟨content, hcont, ?_⟩
    split at hm
    · split at hm
      · rename_i m' hfm
        split at hm
        · rename_i henc
          simp only [List.mem_singleton] at hm
          subst hm
          simp only [Bool.not_eq_true'] at henc
          exact ⟨hfm, henc⟩
        · simp at hm
      · simp at hm
    · simp at hm
  · right; right; exact h

/-- C4 (amended): every URL produced by the in-page Text-Scan Extractor
matches the image-extension pattern (http or https scheme, an extension
among jpg, jpeg, png, webp, gif, optional query string) and does not
contain encrypted-tbn; the output is duplicate-free and sorted by string
length in descending order; and within each length the output preserves
the first-encounter order of the merged method results.  The original
claim's stronger conjunct - that no output URL is blocked by the full
Pattern Filter - fails, because Method 2 screens only for encrypted-tbn
(see the counterexample). -/
theorem C4_extractor_amended (scripts metas : List Str) (allText : Str) :
    (∀ m ∈ extract_urls_from_page_data scripts metas allText,
       isImageUrlShaped m = true ∧ hasSub "encrypted-tbn".data m = false) ∧
    (extract_urls_from_page_data scripts metas allText).Nodup ∧
    (extract_urls_from_page_data scripts metas allText).Pairwise
      (fun a b => b.length ≤ a.length) ∧
    (∀ L : Nat,
      (extract_urls_from_page_data scripts metas allText).filter
        (fun s => s.length = L)
      = (dedupFirst
          ((scripts.flatMap (fun content =>
             if hasSub "[\"".data content && hasSub "http".data content then
               (scanMatches class1Char true content).filter method1Keep
             else [])) ++
           (metas.flatMap (fun content =>
             if hasSub "http".data content &&
                (hasSub ".jpg".data content || hasSub ".png".data content) then
               match firstMatch class2Char false content with
               | some m => if !(hasSub "encrypted-tbn".data m) then [m] else []
               | none => []
             else [])) ++
           (scanMatches class3Char true allText).filter method3Keep)).filter
          (fun s => s.length = L)) := by
  refine ⟨?_, ?_, ?_, ?_⟩
  · intro m hm
    rcases mem_extract_cases hm with ⟨content, hc1, hm1⟩ | ⟨content, hc2, hfm, henc⟩ | hm3
    · rw [List.mem_filter] at hm1
      refine ⟨scanMatches_shaped class1_sub_class2 hm1.1, ?_⟩
      have hk := hm1.2
      simp only [method1Keep, Bool.and_eq_true, Bool.not_eq_true'] at hk
      exact hk.1.1.1.1.1.1.1.1
    · obtain ⟨u, len, hmm, rfl⟩ := firstMatch_mem hfm
      exact ⟨matchAt_shaped (fun c hc => hc) hmm, henc⟩
    · rw [List.mem_filter] at hm3
      refine ⟨scanMatches_shaped class3_sub_class2 hm3.1, ?_⟩
      have hk := hm3.2
      simp only [method3Keep, Bool.and_eq_true, Bool.not_eq_true'] at hk
      exact hk.1.1.1
  · exact ((perm_sortLenDesc _).nodup_iff).mpr (nodup_dedupFirst _)
  · exact pairwise_sortLenDesc _
  · intro L
    exact filter_sortLenDesc _ L

/-- C4 (counterexample): a meta-tag URL containing the blocklist pattern
logo is returned by the extractor, because Method 2
(GoogleImageScraper.py lines 143-147) checks only encrypted-tbn and never
applies the nine-pattern filter; so the claim that every returned URL is
not blocked by the Pattern Filter is false. -/
theorem C4_extractor_counterexample :
    extract_urls_from_page_data [] ["http://a.com/logo-big.png".data] "".data
      = ["http://a.com/logo-big.png".data] ∧
    is_blocked "http://a.com/logo-big.png".data defaultBlocklist = true := by
  constructor
  · decide
  · decide
